import Mathlib

/-
Verification of the core pipeline of `EDA/pandas_API/deploy_script.py`:
pagination of a dataset into fixed-size pages (the slicing loop in `main`),
encoding each page as a base64 CSV blob inside a JSON envelope (`csv2json`),
decoding the envelope back into a dataset (`read_from_api` /
`decode_csv_from_api`), fuzzy correction of free-text fields (`fix_word`,
built on `difflib.get_close_matches`), and the grouped aggregation that
builds the final report (`main`).

Modelling conventions:
- a pandas DataFrame of transactions is a `List Record`;
- float amounts are modelled as exact decimals (`Decimal`), which is the
  value space a Python float inhabits and round-trips through its decimal
  text form;
- text is handled at the `List Char` level; the byte level of the base64
  layer models the ASCII subset of UTF-8 (every character produced by the
  encoder is ASCII);
- Python exceptions are modelled by `Option`: `none` is a raised error.
-/

namespace Pipeline

/-- An exact decimal number `mant * 10 ^ (-exp)`.  This is the value space
of the `amount` column as it appears in the CSV text: a float is printed
as a finite decimal and parses back exactly. -/
structure Decimal where
  mant : Int
  exp : Nat
deriving DecidableEq

/-- The rational value of a `Decimal`. -/
def Decimal.toRat (d : Decimal) : ℚ := (d.mant : ℚ) / (10 : ℚ) ^ d.exp

/-- One transaction record, the fixed row shape
`(id, country, status, amount)` of the synthetic DataFrame in `main`. -/
structure Record where
  id : Int
  country : String
  status : String
  amount : Decimal
deriving DecidableEq

/-- Python list slicing `l[a:b]` for nonnegative bounds, as used by
`df[i:i + rows_page]` in `main`. -/
def pySlice {α : Type} (l : List α) (a b : Nat) : List α := (l.take b).drop a

/-- The pagination loop of `main`
(`for i in range(0, rows, rows_page): pages.append(df[i:i + rows_page])`),
generalized over the dataset and the page size, exactly as Python executes
it: `range` with step `0` raises `ValueError` (modelled as `none`); a
negative step gives an empty `range(0, rows, step)`, hence zero pages; a
positive step `s` enumerates `i = 0, s, 2s, ...` below `len(df)`, which is
`ceil(len(df) / s)` many slices. -/
def paginate {α : Type} (df : List α) (pageSize : Int) : Option (List (List α)) :=
  if pageSize = 0 then none
  else if pageSize < 0 then some []
  else
    some ((List.range ((df.length + pageSize.toNat - 1) / pageSize.toNat)).map
      (fun k => pySlice df (k * pageSize.toNat) (k * pageSize.toNat + pageSize.toNat)))

/-- Reference chunking recursion: successive `take s` / `drop s`. -/
def chunkList {α : Type} (s : Nat) : List α → List (List α)
  | [] => []
  | x :: xs =>
    if s = 0 then []
    else (x :: xs).take s :: chunkList s ((x :: xs).drop s)
termination_by l => l.length
decreasing_by
  simp only [List.length_drop, List.length_cons]
  omega

theorem chunkList_nil {α : Type} (s : Nat) : chunkList s ([] : List α) = [] := by
  rw [chunkList]

theorem chunkList_cons {α : Type} (s : Nat) (hs : s ≠ 0) (x : α) (xs : List α) :
    chunkList s (x :: xs) = (x :: xs).take s :: chunkList s ((x :: xs).drop s) := by
  rw [chunkList, if_neg hs]

theorem chunkList_flatten {α : Type} (s : Nat) (hs : s ≠ 0) (l : List α) :
    (chunkList s l).flatten = l := by
  induction l using chunkList.induct s with
  | case1 => simp [chunkList_nil]
  | case2 x xs h => exact absurd h hs
  | case3 x xs h ih =>
    rw [chunkList_cons s hs]
    simp [ih]

theorem chunkList_length {α : Type} (s : Nat) (hs : s ≠ 0) (l : List α) :
    (chunkList s l).length = (l.length + s - 1) / s := by
  induction l using chunkList.induct s with
  | case1 =>
    rw [chunkList_nil]
    simp only [List.length_nil]
    exact (Nat.div_eq_of_lt (by omega)).symm
  | case2 x xs h => exact absurd h hs
  | case3 x xs h ih =>
    rw [chunkList_cons s hs]
    simp only [List.length_cons, ih, List.length_drop]
    set n := xs.length + 1 with hn
    rcases le_or_lt n s with hle | hlt
    · have hz : n - s = 0 := by omega
      rw [hz]
      have h1 : (0 + s - 1) / s = 0 := Nat.div_eq_of_lt (by omega)
      have h2 : n + s - 1 = (n - 1) + s := by omega
      rw [h1, h2, Nat.add_div_right _ (by omega)]
      have : (n - 1) / s = 0 := Nat.div_eq_of_lt (by omega)
      omega
    · have h2 : n - s + s - 1 = (n - s - 1) + s := by omega
      have h3 : n + s - 1 = (n - s - 1) + s + s := by omega
      rw [h2, h3, Nat.add_div_right _ (by omega), Nat.add_div_right _ (by omega),
        Nat.add_div_right _ (by omega)]

theorem chunkList_mem_length {α : Type} (s : Nat) (hs : s ≠ 0) (l : List α) :
    ∀ pg ∈ chunkList s l, 1 ≤ pg.length ∧ pg.length ≤ s := by
  induction l using chunkList.induct s with
  | case1 => rw [chunkList_nil]; intro pg hpg; simp at hpg
  | case2 x xs h => exact absurd h hs
  | case3 x xs h ih =>
    rw [chunkList_cons s hs]
    intro pg hpg
    rcases List.mem_cons.mp hpg with hpg | hpg
    · subst hpg
      simp only [List.length_take, List.length_cons]
      omega
    · exact ih pg hpg

theorem chunkList_get_length {α : Type} (s : Nat) (hs : s ≠ 0) (l : List α) :
    ∀ i : Fin (chunkList s l).length, (i : Nat) + 1 < (chunkList s l).length →
      ((chunkList s l).get i).length = s := by
  induction l using chunkList.induct s with
  | case1 => rw [chunkList_nil]; intro i; exact absurd i.isLt (by simp)
  | case2 x xs h => exact absurd h hs
  | case3 x xs h ih =>
    rw [chunkList_cons s hs]
    intro i hi
    match i with
    | ⟨0, h0⟩ =>
      simp only [List.get, List.length_take, List.length_cons]
      simp only [List.length_cons] at hi
      -- more than one chunk: the dropped tail is nonempty, so `s < l.length`
      have htail : chunkList s ((x :: xs).drop s) ≠ [] := by
        intro hnil
        rw [hnil] at hi
        simp at hi
      have hdrop : (x :: xs).drop s ≠ [] := by
        intro hnil
        rw [hnil, chunkList_nil] at htail
        exact htail rfl
      have hlen : (x :: xs).length - s ≠ 0 := by
        intro hz
        exact hdrop (List.length_eq_zero.mp (by simp only [List.length_drop]; omega))
      simp only [List.length_cons] at hlen
      omega
    | ⟨j + 1, hj⟩ =>
      simp only [List.length_cons, Fin.val_mk] at hi hj
      have h3 := ih ⟨j, by omega⟩ (by simp only [Fin.val_mk]; omega)
      simpa using h3

theorem chunkList_getLast {α : Type} (s : Nat) (hs : s ≠ 0) (l : List α) (hl : l ≠ []) :
    ∃ lst, (chunkList s l).getLast? = some lst ∧ 1 ≤ lst.length ∧ lst.length ≤ s := by
  have hne : chunkList s l ≠ [] := by
    match l, hl with
    | x :: xs, _ =>
      rw [chunkList_cons s hs]
      simp
  have hmem : (chunkList s l).getLast hne ∈ chunkList s l := List.getLast_mem hne
  refine ⟨(chunkList s l).getLast hne, List.getLast?_eq_getLast _ hne, ?_, ?_⟩
  · exact (chunkList_mem_length s hs l _ hmem).1
  · exact (chunkList_mem_length s hs l _ hmem).2

/-- The range/slice pagination of `main` computes exactly the reference
chunking when the page size is positive. -/
theorem paginate_eq_chunkList {α : Type} (l : List α) (P : Int) (hP : 0 < P) :
    paginate l P = some (chunkList P.toNat l) := by
  have hP0 : P ≠ 0 := by omega
  have hPn : ¬ P < 0 := by omega
  rw [paginate, if_neg hP0, if_neg hPn]
  congr 1
  have hs : P.toNat ≠ 0 := by omega
  generalize P.toNat = s at hs ⊢
  induction l using chunkList.induct s with
  | case1 =>
    rw [chunkList_nil]
    simp only [List.length_nil]
    rw [Nat.div_eq_of_lt (by omega), List.range_zero, List.map_nil]
  | case2 x xs h => exact absurd h hs
  | case3 x xs h ih =>
    rw [chunkList_cons s hs]
    set n := (x :: xs).length with hn
    have hlen : n ≠ 0 := by simp [hn]
    have hcnt : (n + s - 1) / s = (n - 1) / s + 1 := by
      have h2 : n + s - 1 = (n - 1) + s := by omega
      rw [h2, Nat.add_div_right _ (by omega)]
    rw [hcnt, List.range_succ_eq_map, List.map_cons]
    congr 1
    · show pySlice (x :: xs) (0 * s) (0 * s + s) = (x :: xs).take s
      simp [pySlice]
    · rw [List.map_map, ← ih]
      have hcnt2 : (((x :: xs).drop s).length + s - 1) / s = (n - 1) / s := by
        simp only [List.length_drop, ← hn]
        rcases le_or_lt n s with hle | hlt
        · have hz : n - s = 0 := by omega
          rw [hz, Nat.div_eq_of_lt (by omega), Nat.div_eq_of_lt (by omega)]
        · have h2 : n - s + s - 1 = (n - s - 1) + s := by omega
          have h3 : n - 1 = (n - s - 1) + s := by omega
          rw [h2, h3, Nat.add_div_right _ (by omega)]
      rw [hcnt2]
      apply List.map_congr_left
      intro k _
      show pySlice (x :: xs) ((k + 1) * s) ((k + 1) * s + s) =
        pySlice ((x :: xs).drop s) (k * s) (k * s + s)
      have hms : (k + 1) * s = s + k * s := by ring
      simp only [pySlice, List.drop_take, List.drop_drop, hms]
      congr 1
      omega

/-- A small concrete dataset used to instantiate the general theorems. -/
def demoRecs : List Record :=
  [⟨1, "Spain", "pending", ⟨100, 0⟩⟩,
   ⟨2, "USA", "completed", ⟨2005, 1⟩⟩,
   ⟨3, "Italy", "failed", ⟨50, 0⟩⟩]

/-- Claim C3: for every dataset `D` and every page size `P > 0`, the
pagination loop of `main` yields exactly `ceil(len(D)/P)` pages (written
in integer arithmetic as `(len(D) + P - 1) / P`, which is also how `main`
computes `total_pages`); every page except the last has exactly `P`
records; for non-empty `D` the last page has between 1 and `P` records;
and concatenating all pages in page order reproduces `D` exactly, with no
record duplicated or dropped. -/
theorem pagination_complete (D : List Record) (P : Int) (hP : 0 < P) :
    ∃ pages, paginate D P = some pages ∧
      pages.length = (D.length + P.toNat - 1) / P.toNat ∧
      (∀ i : Fin pages.length, (i : Nat) + 1 < pages.length →
        (pages.get i).length = P.toNat) ∧
      (D ≠ [] → ∃ lst, pages.getLast? = some lst ∧
        1 ≤ lst.length ∧ lst.length ≤ P.toNat) ∧
      pages.flatten = D := by
  have hs : P.toNat ≠ 0 := by omega
  exact ⟨chunkList P.toNat D, paginate_eq_chunkList D P hP,
    chunkList_length _ hs _, chunkList_get_length _ hs _,
    fun hD => chunkList_getLast _ hs _ hD, chunkList_flatten _ hs _⟩

theorem pagination_complete_witness :
    ∃ pages, paginate demoRecs 2 = some pages ∧
      pages.length = (demoRecs.length + (2 : Int).toNat - 1) / (2 : Int).toNat ∧
      (∀ i : Fin pages.length, (i : Nat) + 1 < pages.length →
        (pages.get i).length = (2 : Int).toNat) ∧
      (demoRecs ≠ [] → ∃ lst, pages.getLast? = some lst ∧
        1 ≤ lst.length ∧ lst.length ≤ (2 : Int).toNat) ∧
      pages.flatten = demoRecs :=
  pagination_complete demoRecs 2 (by decide)

/-- Claim C8 (amended): the code performs no page-size validation and no
`InvalidConfiguration` error exists anywhere in it.  With `page_size = 0`
the pagination loop fails (Python's `range` raises `ValueError` on a zero
step, modelled as `none`); with `page_size < 0` it does not fail at all
but silently produces an empty list of pages; with `page_size > 0` it
succeeds. -/
theorem pagination_page_size (D : List Record) (P : Int) :
    paginate D (0 : Int) = none ∧
    (P < 0 → paginate D P = some []) ∧
    (0 < P → ∃ pages, paginate D P = some pages) := by
  refine ⟨by rw [paginate, if_pos rfl], fun hneg => ?_, fun hpos =>
    ⟨chunkList P.toNat D, paginate_eq_chunkList D P hpos⟩⟩
  rw [paginate, if_neg (by omega), if_pos hneg]

theorem pagination_page_size_witness :
    paginate demoRecs (0 : Int) = none ∧
    paginate demoRecs (-2 : Int) = some [] ∧
    (∃ pages, paginate demoRecs 3 = some pages) :=
  ⟨(pagination_page_size demoRecs 3).1,
   (pagination_page_size demoRecs (-2)).2.1 (by decide),
   (pagination_page_size demoRecs 3).2.2 (by decide)⟩

/-- Claim C8 counterexample: at `page_size = -1` the pagination does not
fail — no error of any kind is raised, contradicting the claim that every
`page_size ≤ 0` fails with `InvalidConfiguration`; it silently returns an
empty list of pages. -/
theorem pagination_page_size_cex :
    paginate demoRecs (-1 : Int) = some [] ∧ paginate demoRecs (-1 : Int) ≠ none := by
  constructor
  · rfl
  · decide

/-! ### Decimal text: digits, integers, decimals, and their parsers.

The encoder writes numbers the way pandas' `to_csv` prints them (decimal
text); the decoder parses them back with `read_csv`.  Both directions are
modelled here at the `List Char` level. -/

/-- Little-endian base-10 digits of `n` (empty for `0`); the fuel argument
makes the recursion structural, `fuel = n` is always enough. -/
def natDigitsAux : Nat → Nat → List Nat
  | 0, _ => []
  | fuel + 1, n => if n = 0 then [] else n % 10 :: natDigitsAux fuel (n / 10)

def natDigits (n : Nat) : List Nat := natDigitsAux n n

/-- Value of a little-endian digit list. -/
def digitsVal : List Nat → Nat
  | [] => 0
  | d :: ds => d + 10 * digitsVal ds

theorem natDigitsAux_val (fuel : Nat) : ∀ n, n ≤ fuel →
    digitsVal (natDigitsAux fuel n) = n := by
  induction fuel with
  | zero =>
    intro n h
    have : n = 0 := by omega
    subst this
    rfl
  | succ fuel ih =>
    intro n h
    rw [natDigitsAux]
    by_cases hz : n = 0
    · subst hz; rfl
    · rw [if_neg hz, digitsVal]
      have h1 : n / 10 ≤ fuel := by
        have := Nat.div_lt_self (by omega : 0 < n) (by omega : (1:Nat) < 10)
        omega
      rw [ih _ h1]
      omega

theorem natDigits_val (n : Nat) : digitsVal (natDigits n) = n :=
  natDigitsAux_val n n le_rfl

theorem natDigitsAux_lt (fuel : Nat) : ∀ n, ∀ d ∈ natDigitsAux fuel n, d < 10 := by
  induction fuel with
  | zero => intro n d hd; simp [natDigitsAux] at hd
  | succ fuel ih =>
    intro n d hd
    rw [natDigitsAux] at hd
    by_cases hz : n = 0
    · simp [hz] at hd
    · rw [if_neg hz] at hd
      rcases List.mem_cons.mp hd with hd | hd
      · subst hd; exact Nat.mod_lt _ (by omega)
      · exact ih _ _ hd

theorem natDigits_lt (n : Nat) : ∀ d ∈ natDigits n, d < 10 :=
  natDigitsAux_lt n n

theorem natDigits_ne_nil (n : Nat) (h : n ≠ 0) : natDigits n ≠ [] := by
  rw [natDigits]
  match n, h with
  | m + 1, _ =>
    rw [natDigitsAux, if_neg (by omega)]
    simp

/-- The low `k` digits of `m`, little-endian, zero padded to length `k`. -/
def padDigits : Nat → Nat → List Nat
  | 0, _ => []
  | k + 1, m => m % 10 :: padDigits k (m / 10)

theorem padDigits_length (k : Nat) : ∀ m, (padDigits k m).length = k := by
  induction k with
  | zero => intro m; rfl
  | succ k ih => intro m; rw [padDigits]; simp [ih]

theorem padDigits_val (k : Nat) : ∀ m, m < 10 ^ k → digitsVal (padDigits k m) = m := by
  induction k with
  | zero =>
    intro m h
    simp [pow_zero] at h
    simp [h, padDigits, digitsVal]
  | succ k ih =>
    intro m h
    rw [padDigits, digitsVal, ih (m / 10) ?_]
    · omega
    · rw [Nat.div_lt_iff_lt_mul (by omega)]
      calc m < 10 ^ (k + 1) := h
      _ = 10 ^ k * 10 := by ring

theorem padDigits_lt (k : Nat) : ∀ m, ∀ d ∈ padDigits k m, d < 10 := by
  induction k with
  | zero => intro m d hd; simp [padDigits] at hd
  | succ k ih =>
    intro m d hd
    rw [padDigits] at hd
    rcases List.mem_cons.mp hd with hd | hd
    · subst hd; exact Nat.mod_lt _ (by omega)
    · exact ih _ _ hd

/-- The character for one decimal digit. -/
def digitChar (d : Nat) : Char := Char.ofNat (48 + d)

/-- Inverse of `digitChar`, failing on non-digit characters. -/
def charDigit (c : Char) : Option Nat :=
  if 48 ≤ c.toNat ∧ c.toNat ≤ 57 then some (c.toNat - 48) else none

theorem charDigit_digitChar (d : Nat) (h : d < 10) : charDigit (digitChar d) = some d := by
  interval_cases d <;> rfl

theorem digitChar_toNat (d : Nat) (h : d < 10) : (digitChar d).toNat = 48 + d := by
  interval_cases d <;> rfl

/-- Error-propagating map over a list, the way a Python loop propagates an
exception raised while processing one element. -/
def mapMO {α β : Type} (f : α → Option β) : List α → Option (List β)
  | [] => some []
  | a :: as => (f a).bind (fun b => (mapMO f as).map (fun bs => b :: bs))

theorem mapMO_map_digitChar (ds : List Nat) (h : ∀ d ∈ ds, d < 10) :
    mapMO charDigit (ds.map digitChar) = some ds := by
  induction ds with
  | nil => rfl
  | cons d ds ih =>
    rw [List.map_cons, mapMO, charDigit_digitChar d (h d (by simp))]
    rw [ih (fun x hx => h x (by simp [hx]))]
    rfl

/-- Decimal text of a natural number, as Python prints it. -/
def natStr (n : Nat) : List Char :=
  if n = 0 then ['0'] else (natDigits n).reverse.map digitChar

/-- Parse a nonempty all-digit string. -/
def parseNat (cs : List Char) : Option Nat :=
  if cs = [] then none
  else (mapMO charDigit cs).map (fun ds => digitsVal ds.reverse)

theorem parseNat_natStr (n : Nat) : parseNat (natStr n) = some n := by
  by_cases hz : n = 0
  · subst hz; rfl
  · rw [natStr, if_neg hz, parseNat,
      if_neg (by simp [List.reverse_eq_nil_iff, natDigits_ne_nil n hz]),
      mapMO_map_digitChar _ (fun d hd => natDigits_lt n d (List.mem_reverse.mp hd))]
    simp [natDigits_val]

theorem natStr_digits (n : Nat) : ∀ c ∈ natStr n, 48 ≤ c.toNat ∧ c.toNat ≤ 57 := by
  intro c hc
  rw [natStr] at hc
  by_cases hz : n = 0
  · rw [if_pos hz] at hc
    simp at hc
    subst hc
    decide
  · rw [if_neg hz] at hc
    rcases List.mem_map.mp hc with ⟨d, hd, hcd⟩
    have hd10 : d < 10 := natDigits_lt n d (List.mem_reverse.mp hd)
    rw [← hcd, digitChar_toNat d hd10]
    omega

theorem natStr_ne_nil (n : Nat) : natStr n ≠ [] := by
  rw [natStr]
  by_cases hz : n = 0
  · simp [hz]
  · rw [if_neg hz]
    simp [natDigits_ne_nil n hz]

/-- Decimal text of an integer, as Python prints it. -/
def intStr (i : Int) : List Char :=
  if i < 0 then '-' :: natStr i.natAbs else natStr i.toNat

/-- Parse optionally-signed decimal integer text. -/
def parseInt (cs : List Char) : Option Int :=
  match cs with
  | [] => none
  | c :: rest =>
    if c = '-' then (parseNat rest).map (fun n => -(n : Int))
    else (parseNat (c :: rest)).map (fun n => (n : Int))

theorem parseInt_natStr (n : Nat) : parseInt (natStr n) = some (n : Int) := by
  cases hns : natStr n with
  | nil => exact absurd hns (natStr_ne_nil n)
  | cons c rest =>
    have hc : c ≠ '-' := by
      intro h
      have hd := natStr_digits n c (by rw [hns]; exact List.mem_cons_self c rest)
      rw [h] at hd
      revert hd
      decide
    rw [show parseInt (c :: rest) =
        if c = '-' then (parseNat rest).map (fun n => -(n : Int))
        else (parseNat (c :: rest)).map (fun n => (n : Int)) from rfl]
    rw [if_neg hc, ← hns, parseNat_natStr]
    rfl

theorem parseInt_intStr (i : Int) : parseInt (intStr i) = some i := by
  by_cases hneg : i < 0
  · rw [intStr, if_pos hneg]
    rw [show parseInt ('-' :: natStr i.natAbs) =
        (parseNat (natStr i.natAbs)).map (fun n => -(n : Int)) from rfl]
    rw [parseNat_natStr]
    show some (-(i.natAbs : Int)) = some i
    congr 1
    omega
  · rw [intStr, if_neg hneg, parseInt_natStr]
    congr 1
    omega

theorem intStr_mem (i : Int) (c : Char) (hc : c ∈ intStr i) :
    c = '-' ∨ (48 ≤ c.toNat ∧ c.toNat ≤ 57) := by
  rw [intStr] at hc
  by_cases hneg : i < 0
  · rw [if_pos hneg] at hc
    rcases List.mem_cons.mp hc with hc | hc
    · exact Or.inl hc
    · exact Or.inr (natStr_digits _ c hc)
  · rw [if_neg hneg] at hc
    exact Or.inr (natStr_digits _ c hc)

/-! ### Splitting and joining text on a separator -/

/-- Split a character list at every occurrence of `sep` (like Python's
`str.split(sep)`: `n` separators give `n + 1` parts, empty parts kept). -/
def splitSep (sep : Char) : List Char → List (List Char)
  | [] => [[]]
  | c :: cs =>
    if c = sep then [] :: splitSep sep cs
    else
      match splitSep sep cs with
      | [] => [[c]]
      | p :: ps => (c :: p) :: ps

/-- Join parts with a single separator between consecutive parts. -/
def joinSep (sep : Char) : List (List Char) → List Char
  | [] => []
  | [p] => p
  | p :: q :: ps => p ++ sep :: joinSep sep (q :: ps)

theorem splitSep_ne_nil (sep : Char) (cs : List Char) : splitSep sep cs ≠ [] := by
  induction cs with
  | nil => simp [splitSep]
  | cons c cs ih =>
    rw [splitSep]
    by_cases h : c = sep
    · simp [h]
    · rw [if_neg h]
      cases hsp : splitSep sep cs with
      | nil => simp
      | cons p ps => simp

theorem splitSep_no_sep (sep : Char) (cs : List Char) (h : sep ∉ cs) :
    splitSep sep cs = [cs] := by
  induction cs with
  | nil => rfl
  | cons c cs ih =>
    rw [splitSep, if_neg (by intro hc; exact h (by rw [← hc]; exact List.mem_cons_self c cs))]
    rw [ih (fun hm => h (List.mem_cons_of_mem c hm))]

theorem splitSep_append (sep : Char) (a b : List Char) (ha : sep ∉ a) :
    splitSep sep (a ++ sep :: b) = a :: splitSep sep b := by
  induction a with
  | nil => simp [splitSep]
  | cons c a ih =>
    rw [List.cons_append, splitSep,
      if_neg (by intro hc; exact ha (by rw [← hc]; exact List.mem_cons_self c a))]
    rw [ih (fun hm => ha (List.mem_cons_of_mem c hm))]

theorem splitSep_joinSep (sep : Char) (parts : List (List Char)) (hne : parts ≠ [])
    (h : ∀ p ∈ parts, sep ∉ p) : splitSep sep (joinSep sep parts) = parts := by
  induction parts with
  | nil => exact absurd rfl hne
  | cons p ps ih =>
    cases ps with
    | nil => exact splitSep_no_sep sep p (h p (by simp))
    | cons q ps2 =>
      rw [joinSep, splitSep_append sep p _ (h p (by simp))]
      rw [ih (by simp) (fun r hr => h r (List.mem_cons_of_mem p hr))]

/-! ### Decimal values as text -/

/-- Decimal text of a `Decimal` value, as pandas prints a float amount:
optional sign, integer part, and — when `exp > 0` — a point followed by
exactly `exp` fraction digits (leading zeros kept). -/
def decStr (d : Decimal) : List Char :=
  if d.exp = 0 then intStr d.mant
  else
    (if d.mant < 0 then ['-'] else []) ++
      natStr (d.mant.natAbs / 10 ^ d.exp) ++
      '.' :: ((padDigits d.exp (d.mant.natAbs % 10 ^ d.exp)).reverse.map digitChar)

/-- Parse number text that was split as integer part `ip` and fraction
part `fp`: the exponent is the fraction length, the mantissa the joined
digits, negated when the text is signed. -/
def parseIpFp (ip fp : List Char) : Option Decimal :=
  if ip = [] then none
  else if ip.head? = some '-' then
    (parseNat ip.tail).bind (fun q => (parseNat fp).map (fun r =>
      ⟨-((q * 10 ^ fp.length + r : Nat) : Int), fp.length⟩))
  else
    (parseNat ip).bind (fun q => (parseNat fp).map (fun r =>
      ⟨((q * 10 ^ fp.length + r : Nat) : Int), fp.length⟩))

/-- Assemble a `Decimal` from the parts of number text split at `'.'`:
either a plain integer, or an integer part and a fraction part whose
length is the exponent. -/
def parseDecParts (parts : List (List Char)) : Option Decimal :=
  match parts with
  | [ip] => (parseInt ip).map (fun i => ⟨i, 0⟩)
  | [ip, fp] => parseIpFp ip fp
  | _ => none

/-- Parse decimal number text (integer or point form) into a `Decimal`;
this is the value-exact content of `read_csv`'s numeric parsing. -/
def parseDec (cs : List Char) : Option Decimal := parseDecParts (splitSep '.' cs)

theorem padChars_length (e r : Nat) :
    ((padDigits e r).reverse.map digitChar).length = e := by
  simp [padDigits_length]

theorem parseNat_padChars (e r : Nat) (he : e ≠ 0) (hr : r < 10 ^ e) :
    parseNat ((padDigits e r).reverse.map digitChar) = some r := by
  have hne : (padDigits e r).reverse.map digitChar ≠ [] := by
    intro hnil
    have hlen := padChars_length e r
    rw [hnil] at hlen
    simp only [List.length_nil] at hlen
    omega
  rw [parseNat, if_neg hne]
  rw [mapMO_map_digitChar _ (fun d hd => padDigits_lt e r d (List.mem_reverse.mp hd))]
  simp [padDigits_val e r hr]

theorem padChars_digits (e r : Nat) (c : Char)
    (hc : c ∈ (padDigits e r).reverse.map digitChar) :
    48 ≤ c.toNat ∧ c.toNat ≤ 57 := by
  rcases List.mem_map.mp hc with ⟨d, hd, hcd⟩
  have hd10 : d < 10 := padDigits_lt e r d (List.mem_reverse.mp hd)
  rw [← hcd, digitChar_toNat d hd10]
  omega

theorem decStr_mem (d : Decimal) (c : Char) (hc : c ∈ decStr d) :
    c = '-' ∨ c = '.' ∨ (48 ≤ c.toNat ∧ c.toNat ≤ 57) := by
  rw [decStr] at hc
  by_cases he : d.exp = 0
  · rw [if_pos he] at hc
    rcases intStr_mem _ c hc with h | h
    · exact Or.inl h
    · exact Or.inr (Or.inr h)
  · rw [if_neg he] at hc
    rcases List.mem_append.mp hc with hc | hc
    · rcases List.mem_append.mp hc with hc | hc
      · by_cases hneg : d.mant < 0
        · rw [if_pos hneg] at hc
          simp at hc
          exact Or.inl hc
        · rw [if_neg hneg] at hc
          simp at hc
      · exact Or.inr (Or.inr (natStr_digits _ c hc))
    · rcases List.mem_cons.mp hc with hc | hc
      · exact Or.inr (Or.inl hc)
      · exact Or.inr (Or.inr (padChars_digits _ _ c hc))

theorem parseDec_decStr (d : Decimal) : parseDec (decStr d) = some d := by
  obtain ⟨m, e⟩ := d
  show parseDecParts (splitSep '.' (decStr ⟨m, e⟩)) = some ⟨m, e⟩
  by_cases he : e = 0
  · subst he
    have hds : decStr ⟨m, 0⟩ = intStr m := by
      simp [decStr]
    rw [hds, splitSep_no_sep '.' _ (by
      intro hm
      rcases intStr_mem m '.' hm with h | h
      · revert h; decide
      · revert h; decide)]
    show (parseInt (intStr m)).map (fun i => (⟨i, 0⟩ : Decimal)) = some (⟨m, 0⟩ : Decimal)
    rw [parseInt_intStr]
    rfl
  · have hpow : (0 : Nat) < 10 ^ e := by positivity
    have hr : m.natAbs % 10 ^ e < 10 ^ e := Nat.mod_lt _ hpow
    have hqr : m.natAbs / 10 ^ e * 10 ^ e + m.natAbs % 10 ^ e = m.natAbs := by
      rw [Nat.mul_comm]
      exact Nat.div_add_mod _ _
    have hnd2 : ('.') ∉ (padDigits e (m.natAbs % 10 ^ e)).reverse.map digitChar := by
      intro hm
      have h2 := padChars_digits e _ _ hm
      revert h2
      decide
    have hndn : ∀ k : Nat, ('.') ∉ natStr k := by
      intro k hm
      have h2 := natStr_digits k _ hm
      revert h2
      decide
    by_cases hneg : m < 0
    · have hds : decStr ⟨m, e⟩ =
          ('-' :: natStr (m.natAbs / 10 ^ e)) ++ '.' ::
            ((padDigits e (m.natAbs % 10 ^ e)).reverse.map digitChar) := by
        simp only [decStr, if_neg he, if_pos hneg]
        rfl
      rw [hds, splitSep_append _ _ _ (by
          intro hm2
          rcases List.mem_cons.mp hm2 with h | h
          · revert h; decide
          · exact hndn _ h),
        splitSep_no_sep _ _ hnd2]
      show parseIpFp ('-' :: natStr (m.natAbs / 10 ^ e))
        ((padDigits e (m.natAbs % 10 ^ e)).reverse.map digitChar) = some (⟨m, e⟩ : Decimal)
      rw [parseIpFp, if_neg (by simp), if_pos (by simp)]
      show (parseNat (natStr (m.natAbs / 10 ^ e))).bind _ = _
      rw [parseNat_natStr, parseNat_padChars e _ he hr]
      simp only [Option.some_bind, Option.map_some', padChars_length, Option.some.injEq,
        Decimal.mk.injEq, and_true]
      rw [hqr]
      omega
    · have hds : decStr ⟨m, e⟩ =
          natStr (m.natAbs / 10 ^ e) ++ '.' ::
            ((padDigits e (m.natAbs % 10 ^ e)).reverse.map digitChar) := by
        simp only [decStr, if_neg he, if_neg hneg]
        rfl
      rw [hds, splitSep_append _ _ _ (hndn _), splitSep_no_sep _ _ hnd2]
      show parseIpFp (natStr (m.natAbs / 10 ^ e))
        ((padDigits e (m.natAbs % 10 ^ e)).reverse.map digitChar) = some (⟨m, e⟩ : Decimal)
      have hhead : (natStr (m.natAbs / 10 ^ e)).head? ≠ some '-' := by
        cases hns : natStr (m.natAbs / 10 ^ e) with
        | nil => exact absurd hns (natStr_ne_nil _)
        | cons c rest =>
          simp only [List.head?_cons]
          intro h
          have hc2 : c = '-' := Option.some.inj h
          have hd := natStr_digits _ c (by rw [hns]; exact List.mem_cons_self c rest)
          rw [hc2] at hd
          revert hd
          decide
      rw [parseIpFp, if_neg (natStr_ne_nil _), if_neg hhead]
      rw [parseNat_natStr, parseNat_padChars e _ he hr]
      simp only [Option.some_bind, Option.map_some', padChars_length, Option.some.injEq,
        Decimal.mk.injEq, and_true]
      rw [hqr]
      omega

/-! ### CSV text for records and pages -/

/-- A cell value as `read_csv` materialises it after NA-sentinel handling
and column dtype inference: a missing value (`NaN`), an `int64` value, a
`float64` value (kept digit-exact as a `Decimal`), a `bool` value, or an
object-dtype string. -/
inductive Cell where
  | na : Cell
  | i (v : Int) : Cell
  | f (v : Decimal) : Cell
  | b (v : Bool) : Cell
  | s (v : String) : Cell
deriving DecidableEq

/-- One row of the typed DataFrame `read_csv` returns, in the fixed
column order `id,country,status,amount`. -/
structure PRecord where
  id : Cell
  country : Cell
  status : Cell
  amount : Cell
deriving DecidableEq

/-- `read_csv`'s default NA sentinel strings: a cell equal to one of
these is read as `NaN`, not as the literal string. -/
def naSentinels : List String :=
  ["", "#N/A", "#N/A N/A", "#NA", "-1.#IND", "-1.#QNAN", "-NaN", "-nan",
   "1.#IND", "1.#QNAN", "<NA>", "N/A", "NA", "NULL", "NaN", "None",
   "n/a", "nan", "null"]

def isNA (cs : List Char) : Bool := naSentinels.any (fun s => s.data == cs)

/-- ASCII-lowercase one character (the tokenizer matches bool literals
without case). -/
def lowerChar (c : Char) : Char :=
  if 65 ≤ c.toNat ∧ c.toNat ≤ 90 then Char.ofNat (c.toNat + 32) else c

def lowerStr (cs : List Char) : List Char := cs.map lowerChar

/-- A cell of a column that converts to `bool` dtype: the tokenizer
accepts `TRUE`/`FALSE` in any casing. -/
def boolCell (cs : List Char) : Option Cell :=
  if lowerStr cs = "true".data then some (Cell.b true)
  else if lowerStr cs = "false".data then some (Cell.b false)
  else none

/-- A cell of a column that converts to `int64`: integer text.  (An NA
anywhere in a column forces `float64` instead, so NA is not accepted
here.) -/
def intCell (cs : List Char) : Option Cell := (parseInt cs).map Cell.i

/-- A cell of a column that converts to `float64`: numeric text, or an NA
sentinel read as `NaN`. -/
def floatCell (cs : List Char) : Option Cell :=
  if isNA cs then some Cell.na else (parseDec cs).map Cell.f

/-- A cell of an object-dtype column: NA sentinels become `NaN`, every
other cell stays the literal string. -/
def objCell (cs : List Char) : Cell :=
  if isNA cs then Cell.na else Cell.s ⟨cs⟩

/-- `read_csv`'s per-column dtype inference: `int64` when every cell of
the column is integer text, else `float64` when every cell is numeric
text or NA, else `bool` when every cell is a bool literal, else
object dtype with per-cell NA sentinels. -/
def inferColumn (col : List (List Char)) : List Cell :=
  match mapMO intCell col with
  | some vs => vs
  | none =>
    match mapMO floatCell col with
    | some vs => vs
    | none =>
      match mapMO boolCell col with
      | some vs => vs
      | none => col.map objCell

/-- CSV-safety of a free-text field as covered by this model: nonempty
ASCII text that `to_csv` writes unquoted (no separator, no quote, no
CR/LF) and that `read_csv` hands back as the same object-dtype string:
not an NA sentinel (those come back as `NaN`), not integer or float text
(an all-numeric column comes back as numbers), and not a bool literal in
any casing (an all-bool column comes back as `bool`). -/
def SafeField (s : String) : Prop :=
  s.data ≠ [] ∧
  (∀ c ∈ s.data, c ≠ ',' ∧ c ≠ '"' ∧ c ≠ '\n' ∧ c ≠ '\r' ∧ c.toNat < 128) ∧
  isNA s.data = false ∧ parseInt s.data = none ∧ parseDec s.data = none ∧
  boolCell s.data = none

instance (s : String) : Decidable (SafeField s) := by
  unfold SafeField
  infer_instance

/-- A record that round-trips exactly: safe text fields, and an amount
with a fractional part — `to_csv` then writes a decimal point and the
column stays `float64` (a column of whole-number amount texts would come
back as `int64`). -/
def SafeRecord (r : Record) : Prop :=
  SafeField r.country ∧ SafeField r.status ∧ r.amount.exp ≠ 0

instance (r : Record) : Decidable (SafeRecord r) := by
  unfold SafeRecord
  infer_instance

def SafeData (df : List Record) : Prop := ∀ r ∈ df, SafeRecord r

instance (df : List Record) : Decidable (SafeData df) := by
  unfold SafeData
  infer_instance

/-- The CSV cells of one record, in the fixed column order
`id,country,status,amount`. -/
def recordCells (r : Record) : List (List Char) :=
  [intStr r.id, r.country.data, r.status.data, decStr r.amount]

/-- One CSV data row: the cells joined with commas (pandas' minimal
quoting writes safe fields bare). -/
def recordLine (r : Record) : List Char := joinSep ',' (recordCells r)

/-- The header row `to_csv` writes for this DataFrame. -/
def headerLine : List Char := "id,country,status,amount".data

/-- The full CSV text of one page as `page.to_csv(index=False)` writes
it: the header and one line per record, each line newline-terminated. -/
def pageCsv (page : List Record) : List Char :=
  joinSep '\n' (headerLine :: page.map recordLine) ++ ['\n']

/-- Split the data rows into cells; `read_csv` errors on a row that does
not have the header's four fields. -/
def rowsCells (rows : List (List Char)) : Option (List (List (List Char))) :=
  mapMO (fun r =>
    if (splitSep ',' r).length = 4 then some (splitSep ',' r) else none) rows

/-- Column `k` of the split rows. -/
def colAt (k : Nat) (rows : List (List (List Char))) : List (List Char) :=
  rows.map (fun r => r.getD k [])

/-- Reassemble the typed rows from the four typed columns. -/
def buildRecords : List Cell → List Cell → List Cell → List Cell → List PRecord
  | iv :: ivs, cv :: cvs, sv :: svs, av :: avs =>
    ⟨iv, cv, sv, av⟩ :: buildRecords ivs cvs svs avs
  | _, _, _, _ => []

/-- Parse the data rows: split each into cells, run per-column dtype
inference, rebuild the typed rows. -/
def parseRows (rows : List (List Char)) : Option (List PRecord) :=
  (rowsCells rows).map (fun rcs =>
    buildRecords (inferColumn (colAt 0 rcs)) (inferColumn (colAt 1 rcs))
      (inferColumn (colAt 2 rcs)) (inferColumn (colAt 3 rcs)))

/-- Build the typed rows from the non-blank lines of a CSV text: the
first line is the header, each remaining line one data row; no lines at
all is an `EmptyDataError` (`none`). -/
def parseCsvLines (lines : List (List Char)) : Option (List PRecord) :=
  match lines with
  | [] => none
  | _hdr :: rows => parseRows rows

/-- Parse CSV text as `pd.read_csv` consumes it: split into lines, ignore
blank lines, treat the first line as the header, split each remaining row
into cells, then apply NA-sentinel handling and per-column dtype
inference. -/
def parseCsv (cs : List Char) : Option (List PRecord) :=
  parseCsvLines ((splitSep '\n' cs).filter (fun l => !l.isEmpty))

/-- The typed row a source record comes back as when every column keeps
its intended dtype: `int64` id, object-string country and status,
`float64` amount. -/
def toParsed (r : Record) : PRecord :=
  ⟨Cell.i r.id, Cell.s r.country, Cell.s r.status, Cell.f r.amount⟩

theorem string_mk_data (s : String) : String.mk s.data = s := by
  cases s
  rfl

theorem intStr_no_comma (i : Int) : (',') ∉ intStr i := by
  intro hm
  rcases intStr_mem i ',' hm with h | h
  · revert h; decide
  · revert h; decide

theorem decStr_no_comma (d : Decimal) : (',') ∉ decStr d := by
  intro hm
  rcases decStr_mem d ',' hm with h | h | h
  · revert h; decide
  · revert h; decide
  · revert h; decide

theorem splitSep_recordLine (r : Record) (hr : SafeRecord r) :
    splitSep ',' (recordLine r) = recordCells r := by
  obtain ⟨⟨hcne, hc, _⟩, ⟨hsne, hs, _⟩, _⟩ := hr
  apply splitSep_joinSep
  · simp [recordCells]
  · intro p hp
    rw [recordCells] at hp
    rcases List.mem_cons.mp hp with h | h
    · subst h; exact intStr_no_comma r.id
    rcases List.mem_cons.mp h with h | h
    · subst h
      intro hm
      exact (hc ',' hm).1 rfl
    rcases List.mem_cons.mp h with h | h
    · subst h
      intro hm
      exact (hs ',' hm).1 rfl
    rcases List.mem_cons.mp h with h | h
    · subst h; exact decStr_no_comma r.amount
    · simp at h

theorem splitSep_append_end (sep : Char) (cs : List Char) :
    splitSep sep (cs ++ [sep]) = splitSep sep cs ++ [[]] := by
  induction cs with
  | nil => simp [splitSep]
  | cons c cs ih =>
    by_cases h : c = sep
    · rw [List.cons_append, splitSep, if_pos h, ih, splitSep, if_pos h, List.cons_append]
    · rw [List.cons_append, splitSep, if_neg h, ih, splitSep, if_neg h]
      cases hsp : splitSep sep cs with
      | nil => exact absurd hsp (splitSep_ne_nil sep cs)
      | cons p ps => simp

theorem recordLine_ne_nil (r : Record) : recordLine r ≠ [] := by
  rw [recordLine, recordCells]
  show joinSep ',' [intStr r.id, r.country.data, r.status.data, decStr r.amount] ≠ []
  rw [joinSep]
  intro hnil
  rcases List.append_eq_nil.mp hnil with ⟨_, h2⟩
  exact absurd h2 (by simp)

theorem joinSep_mem (sep : Char) (parts : List (List Char)) (c : Char)
    (hc : c ∈ joinSep sep parts) : c = sep ∨ ∃ p ∈ parts, c ∈ p := by
  induction parts with
  | nil => simp [joinSep] at hc
  | cons p ps ih =>
    cases ps with
    | nil => exact Or.inr ⟨p, by simp, hc⟩
    | cons q ps2 =>
      rw [joinSep] at hc
      rcases List.mem_append.mp hc with h | h
      · exact Or.inr ⟨p, by simp, h⟩
      · rcases List.mem_cons.mp h with h | h
        · exact Or.inl h
        · rcases ih h with h | ⟨p2, hp2, hcp2⟩
          · exact Or.inl h
          · exact Or.inr ⟨p2, List.mem_cons_of_mem _ hp2, hcp2⟩

/-- Every character of a safe record's CSV row is ASCII and is neither a
newline nor a carriage return. -/
theorem recordLine_char (r : Record) (hr : SafeRecord r) :
    ∀ c ∈ recordLine r, c ≠ '\n' ∧ c.toNat < 128 := by
  intro c hc
  obtain ⟨⟨hcne, hcc, _⟩, ⟨hsne, hss, _⟩, _⟩ := hr
  rcases joinSep_mem _ _ _ hc with h | ⟨p, hp, hcp⟩
  · subst h
    exact ⟨by decide, by decide⟩
  · rw [recordCells] at hp
    rcases List.mem_cons.mp hp with h | h
    · subst h
      rcases intStr_mem _ _ hcp with h | h
      · subst h; exact ⟨by decide, by decide⟩
      · exact ⟨by intro he; rw [he] at h; revert h; decide, by omega⟩
    rcases List.mem_cons.mp h with h | h
    · subst h
      exact ⟨(hcc c hcp).2.2.1, (hcc c hcp).2.2.2.2⟩
    rcases List.mem_cons.mp h with h | h
    · subst h
      exact ⟨(hss c hcp).2.2.1, (hss c hcp).2.2.2.2⟩
    rcases List.mem_cons.mp h with h | h
    · subst h
      rcases decStr_mem _ _ hcp with h | h | h
      · subst h; exact ⟨by decide, by decide⟩
      · subst h; exact ⟨by decide, by decide⟩
      · exact ⟨by intro he; rw [he] at h; revert h; decide, by omega⟩
    · simp at h

theorem mapMO_none_of_head {α β : Type} (f : α → Option β) (a : α) (l : List α)
    (h : f a = none) : mapMO f (a :: l) = none := by
  rw [mapMO, h]
  rfl

theorem mapMO_charDigit_dot (cs : List Char) (h : ('.') ∈ cs) :
    mapMO charDigit cs = none := by
  induction cs with
  | nil => simp at h
  | cons c cs ih =>
    rcases List.mem_cons.mp h with h | h
    · rw [← h, mapMO, show charDigit '.' = none from by decide]
      rfl
    · rw [mapMO, ih h]
      cases charDigit c <;> rfl

theorem parseNat_dot (cs : List Char) (h : ('.') ∈ cs) : parseNat cs = none := by
  rw [parseNat, if_neg (by rintro rfl; simp at h), mapMO_charDigit_dot cs h]
  rfl

theorem parseInt_dot (cs : List Char) (h : ('.') ∈ cs) : parseInt cs = none := by
  cases cs with
  | nil => simp at h
  | cons c rest =>
    simp only [parseInt]
    by_cases hc : c = '-'
    · rw [if_pos hc]
      have hdot : ('.') ∈ rest := by
        rcases List.mem_cons.mp h with h2 | h2
        · rw [hc] at h2
          exact absurd h2 (by decide)
        · exact h2
      rw [parseNat_dot rest hdot]
      rfl
    · rw [if_neg hc, parseNat_dot _ h]
      rfl

theorem dot_mem_decStr (d : Decimal) (he : d.exp ≠ 0) : ('.') ∈ decStr d := by
  rw [decStr, if_neg he]
  simp

theorem decStr_ne_nil (d : Decimal) : decStr d ≠ [] := by
  rw [decStr]
  by_cases he : d.exp = 0
  · rw [if_pos he, intStr]
    by_cases hneg : d.mant < 0
    · rw [if_pos hneg]
      simp
    · rw [if_neg hneg]
      exact natStr_ne_nil _
  · rw [if_neg he]
    intro hnil
    rcases List.append_eq_nil.mp hnil with ⟨_, h2⟩
    simp at h2

theorem decStr_ne_of_mem (d : Decimal) (cs : List Char) (c : Char) (hc : c ∈ cs)
    (h1 : c ≠ '-') (h2 : c ≠ '.') (h3 : ¬(48 ≤ c.toNat ∧ c.toNat ≤ 57)) :
    cs ≠ decStr d := by
  intro he
  rw [he] at hc
  rcases decStr_mem d c hc with h | h | h
  · exact h1 h
  · exact h2 h
  · exact h3 h

/-- A float amount's text is never an NA sentinel: every sentinel other
than the empty string carries a character that is neither a sign, a
point, nor a digit. -/
theorem isNA_decStr (d : Decimal) : isNA (decStr d) = false := by
  rw [isNA]
  rw [List.any_eq_false]
  intro s hs
  rw [beq_iff_eq]
  fin_cases hs
  · exact fun he => decStr_ne_nil d he.symm
  · exact decStr_ne_of_mem d _ '#' (by decide) (by decide) (by decide) (by decide)
  · exact decStr_ne_of_mem d _ '#' (by decide) (by decide) (by decide) (by decide)
  · exact decStr_ne_of_mem d _ '#' (by decide) (by decide) (by decide) (by decide)
  · exact decStr_ne_of_mem d _ '#' (by decide) (by decide) (by decide) (by decide)
  · exact decStr_ne_of_mem d _ '#' (by decide) (by decide) (by decide) (by decide)
  · exact decStr_ne_of_mem d _ 'N' (by decide) (by decide) (by decide) (by decide)
  · exact decStr_ne_of_mem d _ 'n' (by decide) (by decide) (by decide) (by decide)
  · exact decStr_ne_of_mem d _ '#' (by decide) (by decide) (by decide) (by decide)
  · exact decStr_ne_of_mem d _ '#' (by decide) (by decide) (by decide) (by decide)
  · exact decStr_ne_of_mem d _ '<' (by decide) (by decide) (by decide) (by decide)
  · exact decStr_ne_of_mem d _ 'N' (by decide) (by decide) (by decide) (by decide)
  · exact decStr_ne_of_mem d _ 'N' (by decide) (by decide) (by decide) (by decide)
  · exact decStr_ne_of_mem d _ 'N' (by decide) (by decide) (by decide) (by decide)
  · exact decStr_ne_of_mem d _ 'N' (by decide) (by decide) (by decide) (by decide)
  · exact decStr_ne_of_mem d _ 'N' (by decide) (by decide) (by decide) (by decide)
  · exact decStr_ne_of_mem d _ 'n' (by decide) (by decide) (by decide) (by decide)
  · exact decStr_ne_of_mem d _ 'n' (by decide) (by decide) (by decide) (by decide)
  · exact decStr_ne_of_mem d _ 'n' (by decide) (by decide) (by decide) (by decide)

theorem mapMO_intCell_intStr (l : List Int) :
    mapMO intCell (l.map intStr) = some (l.map Cell.i) := by
  induction l with
  | nil => rfl
  | cons a as ih =>
    rw [List.map_cons, mapMO,
      show intCell (intStr a) = some (Cell.i a) from by rw [intCell, parseInt_intStr]; rfl]
    rw [ih]
    rfl

/-- An all-integer-text column (the `id` column) converts to `int64`. -/
theorem inferColumn_ints (l : List Int) :
    inferColumn (l.map intStr) = l.map Cell.i := by
  simp only [inferColumn]
  rw [mapMO_intCell_intStr l]

/-- An all-safe-string column (the `country` and `status` columns)
stays object dtype with the literal strings. -/
theorem inferColumn_strings (col : List String) (h : ∀ s ∈ col, SafeField s) :
    inferColumn (col.map String.data) = col.map Cell.s := by
  cases hcol : col with
  | nil => rfl
  | cons s ss =>
    obtain ⟨hne, _, hna, hint, hdec, hbool⟩ := h s (by rw [hcol]; simp)
    simp only [inferColumn, List.map_cons]
    rw [mapMO_none_of_head _ _ _ (by rw [intCell, hint]; rfl)]
    rw [mapMO_none_of_head _ _ _ (by
      rw [floatCell, hna, if_neg (by simp), hdec]
      rfl)]
    rw [mapMO_none_of_head _ _ _ hbool]
    show ((s :: ss).map String.data).map objCell = (s :: ss).map Cell.s
    rw [List.map_map]
    apply List.map_congr_left
    intro x hx
    obtain ⟨_, _, hnax, _, _, _⟩ := h x (by rw [hcol]; exact hx)
    show objCell x.data = Cell.s x
    rw [objCell, hnax, if_neg (by simp), string_mk_data]

theorem mapMO_floatCell_decStr (l : List Decimal) :
    mapMO floatCell (l.map decStr) = some (l.map Cell.f) := by
  induction l with
  | nil => rfl
  | cons a as ih =>
    rw [List.map_cons, mapMO,
      show floatCell (decStr a) = some (Cell.f a) from by
        rw [floatCell, isNA_decStr, if_neg (by simp), parseDec_decStr]
        rfl]
    rw [ih]
    rfl

/-- A column of float texts with fractional parts (the `amount` column)
converts to `float64`, recovering each value exactly. -/
theorem inferColumn_floats (l : List Decimal) (h : ∀ d ∈ l, d.exp ≠ 0) :
    inferColumn (l.map decStr) = l.map Cell.f := by
  cases hl : l with
  | nil => rfl
  | cons a as =>
    simp only [inferColumn, List.map_cons]
    rw [mapMO_none_of_head _ _ _ (by
      rw [intCell, parseInt_dot _ (dot_mem_decStr a (h a (by rw [hl]; simp)))]
      rfl)]
    rw [show mapMO floatCell (decStr a :: as.map decStr) = some ((a :: as).map Cell.f) from by
      rw [← List.map_cons]
      exact mapMO_floatCell_decStr (a :: as)]
    rfl

theorem rowsCells_recordLines (page : List Record) (hsafe : ∀ r ∈ page, SafeRecord r) :
    rowsCells (page.map recordLine) = some (page.map recordCells) := by
  induction page with
  | nil => rfl
  | cons r rs ih =>
    rw [List.map_cons, rowsCells, mapMO]
    have hf : (if (splitSep ',' (recordLine r)).length = 4
        then some (splitSep ',' (recordLine r)) else none) = some (recordCells r) := by
      rw [splitSep_recordLine r (hsafe r (by simp))]
      rfl
    rw [hf]
    have ih2 := ih (fun x hx => hsafe x (by simp [hx]))
    rw [rowsCells] at ih2
    rw [ih2]
    rfl

theorem buildRecords_map (page : List Record) :
    buildRecords (page.map (fun r => Cell.i r.id)) (page.map (fun r => Cell.s r.country))
      (page.map (fun r => Cell.s r.status)) (page.map (fun r => Cell.f r.amount)) =
    page.map toParsed := by
  induction page with
  | nil => rfl
  | cons r rs ih =>
    simp only [List.map_cons, buildRecords]
    rw [ih]
    rfl

theorem parseCsv_pageCsv (page : List Record) (hsafe : ∀ r ∈ page, SafeRecord r) :
    parseCsv (pageCsv page) = some (page.map toParsed) := by
  have hnomem : ∀ l ∈ headerLine :: page.map recordLine, ('\n') ∉ l := by
    intro l hl hm
    rcases List.mem_cons.mp hl with h | h
    · subst h
      revert hm
      decide
    · rcases List.mem_map.mp h with ⟨r, hrmem, hrl⟩
      subst hrl
      exact (recordLine_char r (hsafe r hrmem) _ hm).1 rfl
  have hsplit : splitSep '\n' (pageCsv page) =
      (headerLine :: page.map recordLine) ++ [[]] := by
    rw [pageCsv, splitSep_append_end, splitSep_joinSep _ _ (by simp) hnomem]
  show parseCsvLines ((splitSep '\n' (pageCsv page)).filter (fun l => !l.isEmpty)) =
    some (page.map toParsed)
  rw [hsplit]
  have hfil : ((headerLine :: page.map recordLine) ++ [[]]).filter (fun l => !l.isEmpty) =
      headerLine :: page.map recordLine := by
    rw [List.filter_append]
    have h1 : ([[]] : List (List Char)).filter (fun l => !l.isEmpty) = [] := rfl
    rw [h1, List.append_nil]
    apply List.filter_eq_self.mpr
    intro l hl
    rcases List.mem_cons.mp hl with h | h
    · subst h
      decide
    · rcases List.mem_map.mp h with ⟨r, _, hrl⟩
      subst hrl
      have h2 := recordLine_ne_nil r
      cases hrc : recordLine r with
      | nil => exact absurd hrc h2
      | cons a as => rfl
  rw [hfil]
  show parseRows (page.map recordLine) = some (page.map toParsed)
  rw [parseRows, rowsCells_recordLines page hsafe]
  have hcol0 : inferColumn (colAt 0 (page.map recordCells)) =
      page.map (fun r => Cell.i r.id) := by
    have e1 : colAt 0 (page.map recordCells) = (page.map (fun r => r.id)).map intStr := by
      rw [colAt, List.map_map, List.map_map]
      rfl
    rw [e1, inferColumn_ints, List.map_map]
    rfl
  have hcol1 : inferColumn (colAt 1 (page.map recordCells)) =
      page.map (fun r => Cell.s r.country) := by
    have e1 : colAt 1 (page.map recordCells) =
        (page.map (fun r => r.country)).map String.data := by
      rw [colAt, List.map_map, List.map_map]
      rfl
    rw [e1, inferColumn_strings _ (by
      intro x hx
      rcases List.mem_map.mp hx with ⟨r, hr, hxr⟩
      rw [← hxr]
      exact (hsafe r hr).1)]
    rw [List.map_map]
    rfl
  have hcol2 : inferColumn (colAt 2 (page.map recordCells)) =
      page.map (fun r => Cell.s r.status) := by
    have e1 : colAt 2 (page.map recordCells) =
        (page.map (fun r => r.status)).map String.data := by
      rw [colAt, List.map_map, List.map_map]
      rfl
    rw [e1, inferColumn_strings _ (by
      intro x hx
      rcases List.mem_map.mp hx with ⟨r, hr, hxr⟩
      rw [← hxr]
      exact (hsafe r hr).2.1)]
    rw [List.map_map]
    rfl
  have hcol3 : inferColumn (colAt 3 (page.map recordCells)) =
      page.map (fun r => Cell.f r.amount) := by
    have e1 : colAt 3 (page.map recordCells) =
        (page.map (fun r => r.amount)).map decStr := by
      rw [colAt, List.map_map, List.map_map]
      rfl
    rw [e1, inferColumn_floats _ (by
      intro x hx
      rcases List.mem_map.mp hx with ⟨r, hr, hxr⟩
      rw [← hxr]
      exact (hsafe r hr).2.2)]
    rw [List.map_map]
    rfl
  show some (buildRecords (inferColumn (colAt 0 (page.map recordCells)))
    (inferColumn (colAt 1 (page.map recordCells)))
    (inferColumn (colAt 2 (page.map recordCells)))
    (inferColumn (colAt 3 (page.map recordCells)))) = some (page.map toParsed)
  rw [hcol0, hcol1, hcol2, hcol3, buildRecords_map]

/-! ### Base64 and the byte layer -/

/-- The standard base64 alphabet. -/
def b64Alphabet : List Char :=
  "ABCDEFGHIJKLMNOPQRSTUVWXYZabcdefghijklmnopqrstuvwxyz0123456789+/".data

/-- Character of a 6-bit group. -/
def b64Char (i : Nat) : Char := b64Alphabet.getD i 'A'

def findIdx (c : Char) : List Char → Option Nat
  | [] => none
  | a :: as => if a = c then some 0 else (findIdx c as).map (· + 1)

/-- Index of a base64 character, `none` outside the alphabet. -/
def b64Index (c : Char) : Option Nat := findIdx c b64Alphabet

theorem b64Index_b64Char : ∀ i < 64, b64Index (b64Char i) = some i := by decide

theorem b64Char_ne_pad : ∀ i < 64, b64Char i ≠ '=' := by decide

/-- base64-encode a byte list (three bytes to four characters, `=`
padding at the end), as `base64.b64encode` does. -/
def b64encode : List Nat → List Char
  | b1 :: b2 :: b3 :: rest =>
    b64Char (b1 / 4) :: b64Char (b1 % 4 * 16 + b2 / 16) ::
      b64Char (b2 % 16 * 4 + b3 / 64) :: b64Char (b3 % 64) :: b64encode rest
  | [b1, b2] =>
    [b64Char (b1 / 4), b64Char (b1 % 4 * 16 + b2 / 16), b64Char (b2 % 16 * 4), '=']
  | [b1] => [b64Char (b1 / 4), b64Char (b1 % 4 * 16), '=', '=']
  | [] => []

/-- base64-decode, as the default (non-strict) `base64.b64decode` does:
four characters to three bytes, a padded final block to one or two;
characters outside the alphabet or bad length raise (`none`). -/
def b64decode : List Char → Option (List Nat)
  | [] => some []
  | c1 :: c2 :: c3 :: c4 :: rest =>
    if c3 = '=' ∧ c4 = '=' ∧ rest = [] then
      (b64Index c1).bind (fun i1 => (b64Index c2).map (fun i2 =>
        [i1 * 4 + i2 / 16]))
    else if c4 = '=' ∧ rest = [] then
      (b64Index c1).bind (fun i1 => (b64Index c2).bind (fun i2 =>
        (b64Index c3).map (fun i3 =>
          [i1 * 4 + i2 / 16, i2 % 16 * 16 + i3 / 4])))
    else
      (b64Index c1).bind (fun i1 => (b64Index c2).bind (fun i2 =>
        (b64Index c3).bind (fun i3 => (b64Index c4).bind (fun i4 =>
          (b64decode rest).map (fun bs =>
            (i1 * 4 + i2 / 16) :: (i2 % 16 * 16 + i3 / 4) ::
              (i3 % 4 * 64 + i4) :: bs)))))
  | _ => none

theorem b64decode_b64encode : ∀ bs : List Nat, (∀ b ∈ bs, b < 256) →
    b64decode (b64encode bs) = some bs := by
  intro bs
  induction bs using b64encode.induct with
  | case1 b1 b2 b3 rest ih =>
    intro h
    have h1 : b1 < 256 := h b1 (by simp)
    have h2 : b2 < 256 := h b2 (by simp)
    have h3 : b3 < 256 := h b3 (by simp)
    rw [b64encode, b64decode]
    rw [if_neg (fun hco => b64Char_ne_pad (b2 % 16 * 4 + b3 / 64) (by omega) hco.1)]
    rw [if_neg (fun hco => b64Char_ne_pad (b3 % 64) (by omega) hco.1)]
    rw [b64Index_b64Char _ (by omega), b64Index_b64Char _ (by omega),
      b64Index_b64Char _ (by omega), b64Index_b64Char _ (by omega)]
    rw [ih (fun b hb => h b (by simp [hb]))]
    simp only [Option.some_bind, Option.map_some']
    have e1 : b1 / 4 * 4 + (b1 % 4 * 16 + b2 / 16) / 16 = b1 := by omega
    have e2 : (b1 % 4 * 16 + b2 / 16) % 16 * 16 + (b2 % 16 * 4 + b3 / 64) / 4 = b2 := by omega
    have e3 : (b2 % 16 * 4 + b3 / 64) % 4 * 64 + b3 % 64 = b3 := by omega
    rw [e1, e2, e3]
  | case2 b1 b2 =>
    intro h
    have h1 : b1 < 256 := h b1 (by simp)
    have h2 : b2 < 256 := h b2 (by simp)
    rw [b64encode, b64decode]
    rw [if_neg (fun hco => b64Char_ne_pad (b2 % 16 * 4) (by omega) hco.1)]
    rw [if_pos ⟨rfl, rfl⟩]
    rw [b64Index_b64Char _ (by omega), b64Index_b64Char _ (by omega),
      b64Index_b64Char _ (by omega)]
    simp only [Option.some_bind, Option.map_some']
    have e1 : b1 / 4 * 4 + (b1 % 4 * 16 + b2 / 16) / 16 = b1 := by omega
    have e2 : (b1 % 4 * 16 + b2 / 16) % 16 * 16 + b2 % 16 * 4 / 4 = b2 := by omega
    rw [e1, e2]
  | case3 b1 =>
    intro h
    have h1 : b1 < 256 := h b1 (by simp)
    rw [b64encode, b64decode]
    rw [if_pos ⟨rfl, rfl, rfl⟩]
    rw [b64Index_b64Char _ (by omega), b64Index_b64Char _ (by omega)]
    simp only [Option.some_bind, Option.map_some']
    have e1 : b1 / 4 * 4 + b1 % 4 * 16 / 16 = b1 := by omega
    rw [e1]
  | case4 =>
    intro _
    rfl

/-- UTF-8 bytes of ASCII text. -/
def strBytes (cs : List Char) : List Nat := cs.map Char.toNat

/-- Decode bytes back to text; this model covers the ASCII subset of
UTF-8 and rejects non-ASCII bytes. -/
def bytesStr (bs : List Nat) : Option (List Char) :=
  if ∀ b ∈ bs, b < 128 then some (bs.map Char.ofNat) else none

theorem bytesStr_strBytes (cs : List Char) (h : ∀ c ∈ cs, c.toNat < 128) :
    bytesStr (strBytes cs) = some cs := by
  rw [bytesStr, strBytes, if_pos (by
    intro b hb
    rcases List.mem_map.mp hb with ⟨c, hc, hbc⟩
    rw [← hbc]
    exact h c hc)]
  rw [List.map_map]
  have hid : ∀ c ∈ cs, (Char.ofNat ∘ Char.toNat) c = id c := fun c _ => Char.ofNat_toNat c
  rw [List.map_congr_left hid, List.map_id]

theorem strBytes_lt (cs : List Char) (h : ∀ c ∈ cs, c.toNat < 128) :
    ∀ b ∈ strBytes cs, b < 256 := by
  intro b hb
  rcases List.mem_map.mp hb with ⟨c, hc, hbc⟩
  rw [← hbc]
  have := h c hc
  omega

/-! ### The JSON envelope: encoder and decoder -/

/-- One entry of the envelope's `pages` list.  `next_page` is the JSON
value that `page.get('next_page')` returns: `none` when the key is
missing, otherwise an integer (the encoder writes `0` or `1`). -/
structure PageRecord where
  page_number : Nat
  next_page : Option Int
  csv_data : List Char
deriving DecidableEq

/-- Python truthiness of the `next_page` value: `None` and `0` are falsy,
any other integer truthy. -/
def isTruthy : Option Int → Bool
  | none => false
  | some n => n != 0

/-- The base64 CSV blob of one page, as `csv2json` builds it (write the
page with `to_csv`, read the bytes back, `b64encode` them). -/
def encodePage (page : List Record) : List Char := b64encode (strBytes (pageCsv page))

/-- The body of `csv2json`'s `for i, page in enumerate(pages)` loop:
`i` is the 0-based index of the current page and `total = len(pages)`;
`page_number = i + 1` and `next_page = 0` iff the page is the last one. -/
def csv2jsonFrom (total : Nat) : Nat → List (List Record) → List PageRecord
  | _, [] => []
  | i, page :: rest =>
    ⟨i + 1, some (if i + 1 = total then 0 else 1), encodePage page⟩ ::
      csv2jsonFrom total (i + 1) rest

/-- `csv2json`: encode the pages into the envelope's `pages` list.  (The
JSON/file round trip around it is byte-identical and outside the model.) -/
def csv2json (pages : List (List Record)) : List PageRecord :=
  csv2jsonFrom pages.length 0 pages

/-- `decode_csv_from_api`: base64-decode the blob, decode the bytes as
text, parse the CSV text into records.  Only `csv_data` is read. -/
def decode_csv_from_api (p : PageRecord) : Option (List PRecord) :=
  (b64decode p.csv_data).bind (fun bs => (bytesStr bs).bind parseCsv)

/-- The page loop of `read_from_api`: decode each PageRecord in stored
order, append its records, and `break` right after a page whose
`next_page` is falsy. -/
def decodePages : List PageRecord → Option (List (List PRecord))
  | [] => some []
  | p :: rest =>
    (decode_csv_from_api p).bind (fun df =>
      if isTruthy p.next_page then
        (decodePages rest).map (fun more => df :: more)
      else some [df])

/-- `read_from_api`: run the page loop, then `pd.concat` the decoded
pages — which raises when the loop produced nothing (`none`). -/
def read_from_api (envelope : List PageRecord) : Option (List PRecord) :=
  (decodePages envelope).bind (fun dfs =>
    if dfs.isEmpty then none else some dfs.flatten)

theorem pageCsv_ascii (page : List Record) (hsafe : ∀ r ∈ page, SafeRecord r) :
    ∀ c ∈ pageCsv page, c.toNat < 128 := by
  intro c hc
  rw [pageCsv] at hc
  rcases List.mem_append.mp hc with hc | hc
  · rcases joinSep_mem _ _ _ hc with h | ⟨l, hl, hcl⟩
    · subst h
      decide
    · rcases List.mem_cons.mp hl with h | h
      · subst h
        have hall : ∀ ch ∈ headerLine, ch.toNat < 128 := by decide
        exact hall c hcl
      · rcases List.mem_map.mp h with ⟨r, hrmem, hrl⟩
        subst hrl
        exact (recordLine_char r (hsafe r hrmem) c hcl).2
  · simp at hc
    subst hc
    decide

/-- Decoding an encoded page of safe records recovers the page exactly,
each record in its typed form. -/
theorem decode_encodePage (pn : Nat) (np : Option Int) (page : List Record)
    (hsafe : ∀ r ∈ page, SafeRecord r) :
    decode_csv_from_api ⟨pn, np, encodePage page⟩ = some (page.map toParsed) := by
  rw [decode_csv_from_api]
  show (b64decode (b64encode (strBytes (pageCsv page)))).bind _ = some (page.map toParsed)
  rw [b64decode_b64encode _ (strBytes_lt _ (pageCsv_ascii page hsafe))]
  rw [Option.some_bind, bytesStr_strBytes _ (pageCsv_ascii page hsafe)]
  rw [Option.some_bind]
  exact parseCsv_pageCsv page hsafe

/-- Decoding the pages of an encoder-produced envelope consumes every
page: the break fires exactly at the lexically last page. -/
theorem decodePages_csv2jsonFrom (pages : List (List Record)) :
    ∀ i total, total = i + pages.length → pages ≠ [] →
    (∀ pg ∈ pages, ∀ r ∈ pg, SafeRecord r) →
    decodePages (csv2jsonFrom total i pages) =
      some (pages.map (fun pg => pg.map toParsed)) := by
  induction pages with
  | nil => intro i total _ hne _; exact absurd rfl hne
  | cons page rest ih =>
    intro i total htot _ hsafe
    rw [csv2jsonFrom, decodePages]
    rw [decode_encodePage _ _ page (fun r hr => hsafe page (by simp) r hr)]
    rw [Option.some_bind]
    cases hrest : rest with
    | nil =>
      have hlast : i + 1 = total := by
        rw [htot, hrest]
        simp
      rw [if_pos hlast]
      show (if isTruthy (some 0) = true then _ else _) = _
      rw [if_neg (by decide)]
      rfl
    | cons q qs =>
      have hnotlast : i + 1 ≠ total := by
        rw [htot, hrest]
        simp only [List.length_cons]
        omega
      rw [if_neg hnotlast]
      show (if isTruthy (some 1) = true then _ else _) = _
      rw [if_pos (by decide)]
      rw [← hrest, ih (i + 1) total (by rw [htot, List.length_cons]; omega)
        (by rw [hrest]; simp) (fun pg hpg r hr => hsafe pg (by simp [hpg]) r hr)]
      rfl

theorem mapMO_length {α β : Type} (f : α → Option β) :
    ∀ (l : List α) (l2 : List β), mapMO f l = some l2 → l2.length = l.length := by
  intro l
  induction l with
  | nil =>
    intro l2 h
    rw [mapMO] at h
    rw [← Option.some.inj h]
    rfl
  | cons a as ih =>
    intro l2 h
    rw [mapMO] at h
    cases hfa : f a with
    | none => rw [hfa] at h; simp at h
    | some b =>
      rw [hfa] at h
      cases hm : mapMO f as with
      | none => rw [hm] at h; simp at h
      | some bs =>
        rw [hm] at h
        simp only [Option.some_bind, Option.map_some'] at h
        rw [← Option.some.inj h]
        simp only [List.length_cons]
        rw [ih bs hm]

theorem mapMO_congr {α β : Type} (f : α → Option β) :
    ∀ (l1 l2 : List α), l1.length = l2.length →
    (∀ k (h1 : k < l1.length) (h2 : k < l2.length), f (l1.get ⟨k, h1⟩) = f (l2.get ⟨k, h2⟩)) →
    mapMO f l1 = mapMO f l2 := by
  intro l1
  induction l1 with
  | nil =>
    intro l2 hlen _
    cases l2 with
    | nil => rfl
    | cons b bs => simp at hlen
  | cons a as ih =>
    intro l2 hlen hk
    cases l2 with
    | nil => simp at hlen
    | cons b bs =>
      rw [mapMO, mapMO]
      have h0 : f a = f b := hk 0 (by simp) (by simp)
      rw [h0, ih bs (by simpa using hlen)
        (fun k hk1 hk2 => hk (k + 1) (by simpa using hk1) (by simpa using hk2))]

/-- The decoder's page loop stops right after the first falsy flag: it
consumes exactly the first `j + 1` pages. -/
theorem decodePages_early_stop : ∀ (env : List PageRecord) (j : Nat) (hj : j < env.length),
    (∀ i (hi : i < env.length), i < j → isTruthy ((env.get ⟨i, hi⟩).next_page) = true) →
    isTruthy ((env.get ⟨j, hj⟩).next_page) = false →
    decodePages env = mapMO decode_csv_from_api (env.take (j + 1)) := by
  intro env
  induction env with
  | nil =>
    intro j hj
    simp at hj
  | cons p rest ih =>
    intro j hj htr hfa
    cases j with
    | zero =>
      rw [decodePages]
      have hfp : isTruthy p.next_page = false := hfa
      rw [hfp, List.take_succ_cons, List.take_zero, mapMO, mapMO]
      cases hdec : decode_csv_from_api p with
      | none => rfl
      | some df => rfl
    | succ j2 =>
      rw [decodePages]
      have htp : isTruthy p.next_page = true := htr 0 (by simp) (by omega)
      rw [htp, List.take_succ_cons, mapMO]
      rw [ih j2 (by simpa using hj)
        (fun i hi hij => htr (i + 1) (by simpa using hi) (by omega))
        (by simpa using hfa)]
      cases mapMO decode_csv_from_api (rest.take (j2 + 1)) with
      | none =>
        cases decode_csv_from_api p with
        | none => rfl
        | some df => rfl
      | some dfs =>
        cases decode_csv_from_api p with
        | none => rfl
        | some df => rfl

/-- Claim C2: the decoder processes the envelope's PageRecords strictly
in stored order and, right after one whose `next_page` is falsy, stops —
even if further PageRecords remain.  For an envelope whose flags are
truthy before index `j` (0-based) and falsy at `j`, the result is exactly
the concatenation of the decoded pages `0..j`: with `j + 1 < k` pages in
the envelope this is a strict prefix of the envelope's full content. -/
theorem decoder_early_termination (env : List PageRecord) (j : Nat) (hj : j < env.length)
    (htr : ∀ i (hi : i < env.length), i < j → isTruthy ((env.get ⟨i, hi⟩).next_page) = true)
    (hfa : isTruthy ((env.get ⟨j, hj⟩).next_page) = false) :
    read_from_api env =
      (mapMO decode_csv_from_api (env.take (j + 1))).map (fun dfs => dfs.flatten) := by
  rw [read_from_api, decodePages_early_stop env j hj htr hfa]
  cases hm : mapMO decode_csv_from_api (env.take (j + 1)) with
  | none => rfl
  | some dfs =>
    have hlen : dfs.length = (env.take (j + 1)).length := mapMO_length _ _ _ hm
    rw [List.length_take] at hlen
    have hpos : dfs.length ≠ 0 := by
      rw [hlen]
      omega
    rw [Option.some_bind, if_neg (by
      intro hemp
      cases hdfs : dfs with
      | nil => rw [hdfs] at hpos; exact hpos rfl
      | cons d ds => rw [hdfs] at hemp; simp at hemp)]
    rfl

/-- A concrete 3-page envelope whose middle page carries a false
continuation flag; the blobs are arbitrary. -/
def demoEnv : List PageRecord :=
  [⟨1, some 1, encodePage [⟨1, "Spain", "pending", ⟨100, 0⟩⟩]⟩,
   ⟨2, some 0, encodePage [⟨2, "USA", "completed", ⟨2005, 1⟩⟩]⟩,
   ⟨3, some 0, encodePage [⟨3, "Italy", "failed", ⟨50, 0⟩⟩]⟩]

theorem decoder_early_termination_witness :
    read_from_api demoEnv =
      (mapMO decode_csv_from_api (demoEnv.take (1 + 1))).map (fun dfs => dfs.flatten) :=
  decoder_early_termination demoEnv 1 (by decide)
    (by decide)
    (by decide)

/-- Claim C9: a PageRecord with no `next_page` key at all (`page.get`
returns `None`, which is falsy) is treated by the decoder exactly like
one whose `next_page` is `0`: its records are still decoded and included,
decoding stops right after it, and no error is raised. -/
theorem decoder_missing_flag (env : List PageRecord) (j : Nat) (hj : j < env.length)
    (htr : ∀ i (hi : i < env.length), i < j → isTruthy ((env.get ⟨i, hi⟩).next_page) = true)
    (hmiss : (env.get ⟨j, hj⟩).next_page = none) :
    read_from_api env =
      (mapMO decode_csv_from_api (env.take (j + 1))).map (fun dfs => dfs.flatten) ∧
    read_from_api env =
      read_from_api (env.set j
        ⟨(env.get ⟨j, hj⟩).page_number, some 0, (env.get ⟨j, hj⟩).csv_data⟩) := by
  have hfa : isTruthy ((env.get ⟨j, hj⟩).next_page) = false := by
    rw [hmiss]
    rfl
  have h1 := decoder_early_termination env j hj htr hfa
  refine ⟨h1, ?_⟩
  set p2 : PageRecord :=
    ⟨(env.get ⟨j, hj⟩).page_number, some 0, (env.get ⟨j, hj⟩).csv_data⟩ with hp2
  have hj2 : j < (env.set j p2).length := by
    rw [List.length_set]
    exact hj
  have h2 := decoder_early_termination (env.set j p2) j hj2
    (fun i hi hij => by
      have hne : j ≠ i := by omega
      rw [List.get_eq_getElem, List.getElem_set_ne hne]
      rw [← List.get_eq_getElem env ⟨i, by simpa using hi⟩]
      exact htr i (by simpa using hi) hij)
    (by
      rw [List.get_eq_getElem, List.getElem_set_self]
      rfl)
  rw [h1, h2]
  congr 1
  apply mapMO_congr
  · rw [List.length_take, List.length_take, List.length_set]
  · intro k hk1 hk2
    have hkj : k < j + 1 := by
      rw [List.length_take] at hk1
      omega
    have hkenv : k < env.length := by
      rw [List.length_take] at hk1
      omega
    rw [List.get_eq_getElem, List.get_eq_getElem, List.getElem_take, List.getElem_take]
    by_cases hkj2 : k = j
    · subst hkj2
      rw [List.getElem_set_self]
      rw [← List.get_eq_getElem env ⟨k, hkenv⟩]
      rw [decode_csv_from_api, decode_csv_from_api]
    · rw [List.getElem_set_ne (fun h => hkj2 h.symm)]

theorem decoder_missing_flag_witness :
    (read_from_api [(⟨1, none, encodePage [⟨1, "Spain", "pending", ⟨100, 0⟩⟩]⟩ : PageRecord),
        ⟨2, some 1, encodePage [⟨2, "USA", "completed", ⟨2005, 1⟩⟩]⟩] =
      (mapMO decode_csv_from_api
        (([(⟨1, none, encodePage [⟨1, "Spain", "pending", ⟨100, 0⟩⟩]⟩ : PageRecord),
          ⟨2, some 1, encodePage [⟨2, "USA", "completed", ⟨2005, 1⟩⟩]⟩]).take (0 + 1))).map
        (fun dfs => dfs.flatten)) ∧
    read_from_api [(⟨1, none, encodePage [⟨1, "Spain", "pending", ⟨100, 0⟩⟩]⟩ : PageRecord),
        ⟨2, some 1, encodePage [⟨2, "USA", "completed", ⟨2005, 1⟩⟩]⟩] =
      read_from_api (([(⟨1, none, encodePage [⟨1, "Spain", "pending", ⟨100, 0⟩⟩]⟩ : PageRecord),
        ⟨2, some 1, encodePage [⟨2, "USA", "completed", ⟨2005, 1⟩⟩]⟩]).set 0
          ⟨1, some 0, encodePage [⟨1, "Spain", "pending", ⟨100, 0⟩⟩]⟩) :=
  decoder_missing_flag _ 0 (by decide) (by decide) (by decide)

/-- Claim C10: decoding an envelope whose `pages` list is empty does not
return an empty dataset: the loop decodes nothing and the final
`pd.concat` of zero DataFrames raises, so `read_from_api` errors. -/
theorem decode_empty_envelope : read_from_api [] = none ∧ read_from_api [] ≠ some [] := by
  exact ⟨rfl, by decide⟩

theorem csv2jsonFrom_getElem? (total : Nat) :
    ∀ (pages : List (List Record)) (i k : Nat),
    (csv2jsonFrom total i pages)[k]? = (pages[k]?).map (fun page =>
      (⟨i + k + 1, some (if i + k + 1 = total then 0 else 1), encodePage page⟩ : PageRecord)) := by
  intro pages
  induction pages with
  | nil =>
    intro i k
    rw [csv2jsonFrom]
    simp
  | cons page rest ih =>
    intro i k
    rw [csv2jsonFrom]
    cases k with
    | zero => simp
    | succ k2 =>
      simp only [List.getElem?_cons_succ]
      rw [ih (i + 1) k2]
      have : i + 1 + k2 = i + (k2 + 1) := by omega
      rw [this]

theorem csv2jsonFrom_length (total : Nat) :
    ∀ (pages : List (List Record)) (i : Nat),
    (csv2jsonFrom total i pages).length = pages.length := by
  intro pages
  induction pages with
  | nil => intro i; rfl
  | cons page rest ih =>
    intro i
    rw [csv2jsonFrom]
    simp [ih]

/-- Claim C4: for every non-empty sequence of `n` pages, the envelope the
encoder produces has its `i`-th PageRecord (1-based) carrying
`page_number = i`, with `next_page` truthy for every PageRecord except
the lexically last one (`i = n`), where it is falsy. -/
theorem encoder_envelope_invariant (pages : List (List Record)) (hne : pages ≠ []) :
    (csv2json pages).length = pages.length ∧
    ∀ k : Nat, k < pages.length →
      ∃ pr : PageRecord, (csv2json pages)[k]? = some pr ∧
        pr.page_number = k + 1 ∧
        (isTruthy pr.next_page = true ↔ k + 1 ≠ pages.length) := by
  refine ⟨csv2jsonFrom_length _ _ _, ?_⟩
  intro k hk
  rw [csv2json, csv2jsonFrom_getElem?]
  rcases List.getElem?_eq_some_iff.mpr ⟨hk, rfl⟩ with hsome
  rw [hsome]
  refine ⟨_, rfl, by simp, ?_⟩
  by_cases hlast : 0 + k + 1 = pages.length
  · rw [if_pos hlast]
    constructor
    · intro htru
      exfalso
      simp [isTruthy] at htru
    · intro hne2
      exact absurd (show k + 1 = pages.length by omega) hne2
  · rw [if_neg hlast]
    constructor
    · intro _
      omega
    · intro _
      rfl

theorem encoder_envelope_invariant_witness :
    ((csv2json [[(⟨1, "Spain", "pending", ⟨100, 0⟩⟩ : Record)],
        [⟨2, "USA", "completed", ⟨2005, 1⟩⟩]]).length =
      ([[(⟨1, "Spain", "pending", ⟨100, 0⟩⟩ : Record)],
        [⟨2, "USA", "completed", ⟨2005, 1⟩⟩]] : List (List Record)).length) ∧
    ∀ k : Nat, k < ([[(⟨1, "Spain", "pending", ⟨100, 0⟩⟩ : Record)],
        [⟨2, "USA", "completed", ⟨2005, 1⟩⟩]] : List (List Record)).length →
      ∃ pr : PageRecord, (csv2json [[(⟨1, "Spain", "pending", ⟨100, 0⟩⟩ : Record)],
        [⟨2, "USA", "completed", ⟨2005, 1⟩⟩]])[k]? = some pr ∧
        pr.page_number = k + 1 ∧
        (isTruthy pr.next_page = true ↔ k + 1 ≠ ([[(⟨1, "Spain", "pending", ⟨100, 0⟩⟩ : Record)],
          [⟨2, "USA", "completed", ⟨2005, 1⟩⟩]] : List (List Record)).length) :=
  encoder_envelope_invariant _ (by decide)

theorem flatten_map_map {α β : Type} (f : α → β) (L : List (List α)) :
    (L.map (fun l => l.map f)).flatten = L.flatten.map f := by
  induction L with
  | nil => rfl
  | cons l ls ih =>
    rw [List.map_cons, List.flatten_cons, List.flatten_cons, List.map_append, ih]

/-- Three safe records (fractional amounts, plain text fields) for the
round-trip witness. -/
def safeRecs : List Record :=
  [⟨1, "Spain", "pending", ⟨1005, 1⟩⟩,
   ⟨2, "USA", "completed", ⟨2005, 1⟩⟩,
   ⟨3, "Italy", "failed", ⟨505, 1⟩⟩]

def lexLt : List Char → List Char → Bool
  | [], [] => false
  | [], _ :: _ => true
  | _ :: _, [] => false
  | a :: as, b :: bs =>
    if a.toNat < b.toNat then true
    else if b.toNat < a.toNat then false
    else lexLt as bs

/-- Python's `<` on strings (code-point lexicographic). -/
def strLt (s1 s2 : String) : Bool := lexLt s1.data s2.data

theorem char_toNat_inj (a b : Char) (h : a.toNat = b.toNat) : a = b := by
  have h2 := congrArg Char.ofNat h
  rwa [Char.ofNat_toNat, Char.ofNat_toNat] at h2

theorem lexLt_irrefl : ∀ l, lexLt l l = false := by
  intro l
  induction l with
  | nil => rfl
  | cons a as ih =>
    rw [lexLt]
    rw [if_neg (by omega), if_neg (by omega)]
    exact ih

theorem lexLt_trans : ∀ a b c, lexLt a b = true → lexLt b c = true → lexLt a c = true := by
  intro a
  induction a with
  | nil =>
    intro b c hab hbc
    cases b with
    | nil => exact absurd hab (by rw [lexLt]; simp)
    | cons y ys =>
      cases c with
      | nil => exact absurd hbc (by rw [lexLt]; simp)
      | cons z zs => rw [lexLt]
  | cons x xs ih =>
    intro b c hab hbc
    cases b with
    | nil => exact absurd hab (by rw [lexLt]; simp)
    | cons y ys =>
      cases c with
      | nil => exact absurd hbc (by rw [lexLt]; simp)
      | cons z zs =>
        rw [lexLt] at hab hbc ⊢
        by_cases hxy : x.toNat < y.toNat
        · by_cases hyz : y.toNat < z.toNat
          · rw [if_pos (by omega)]
          · rw [if_neg hyz] at hbc
            by_cases hzy : z.toNat < y.toNat
            · rw [if_pos hzy] at hbc
              exact absurd hbc (by simp)
            · rw [if_pos (by omega)]
        · rw [if_neg hxy] at hab
          by_cases hyx : y.toNat < x.toNat
          · rw [if_pos hyx] at hab
            exact absurd hab (by simp)
          · rw [if_neg hyx] at hab
            by_cases hyz : y.toNat < z.toNat
            · rw [if_pos (by omega)]
            · rw [if_neg hyz] at hbc
              by_cases hzy : z.toNat < y.toNat
              · rw [if_pos hzy] at hbc
                exact absurd hbc (by simp)
              · rw [if_neg hzy] at hbc
                rw [if_neg (by omega), if_neg (by omega)]
                exact ih ys zs hab hbc

theorem lexLt_eq_of_not_lt : ∀ a b, lexLt a b = false → lexLt b a = false → a = b := by
  intro a
  induction a with
  | nil =>
    intro b hab _
    cases b with
    | nil => rfl
    | cons y ys => exact absurd hab (by rw [lexLt]; simp)
  | cons x xs ih =>
    intro b hab hba
    cases b with
    | nil => exact absurd hba (by rw [lexLt]; simp)
    | cons y ys =>
      rw [lexLt] at hab hba
      by_cases hxy : x.toNat < y.toNat
      · rw [if_pos hxy] at hab
        exact absurd hab (by simp)
      · by_cases hyx : y.toNat < x.toNat
        · rw [if_pos hyx] at hba
          exact absurd hba (by simp)
        · rw [if_neg hxy, if_neg hyx] at hab
          rw [if_neg hyx, if_neg hxy] at hba
          have hx : x = y := char_toNat_inj x y (by omega)
          rw [hx, ih ys hab hba]

theorem strLt_irrefl (s : String) : strLt s s = false := lexLt_irrefl s.data

theorem strLt_trans (a b c : String) (h1 : strLt a b = true) (h2 : strLt b c = true) :
    strLt a c = true := lexLt_trans a.data b.data c.data h1 h2

theorem strLt_eq_of_not_lt (a b : String) (h1 : strLt a b = false) (h2 : strLt b a = false) :
    a = b := by
  have := lexLt_eq_of_not_lt a.data b.data h1 h2
  rw [← string_mk_data a, ← string_mk_data b, this]

theorem strLt_asymm (a b : String) (h : strLt a b = true) : strLt b a = false := by
  cases hba : strLt b a with
  | false => rfl
  | true =>
    have := strLt_trans a b a h hba
    rw [strLt_irrefl] at this
    cases this

/-- Insertion into a sorted list of keys. -/
def insertSorted (x : String) : List String → List String
  | [] => [x]
  | y :: ys => if strLt y x then y :: insertSorted x ys else x :: y :: ys

/-- Insertion sort by `strLt`. -/
def sortStr : List String → List String
  | [] => []
  | x :: xs => insertSorted x (sortStr xs)

theorem perm_insertSorted (x : String) : ∀ l, List.Perm (insertSorted x l) (x :: l) := by
  intro l
  induction l with
  | nil => rfl
  | cons y ys ih =>
    rw [insertSorted]
    by_cases h : strLt y x = true
    · rw [if_pos h]
      exact List.Perm.trans (List.Perm.cons y ih) (List.Perm.swap x y ys)
    · rw [if_neg h]

theorem perm_sortStr : ∀ l, List.Perm (sortStr l) l := by
  intro l
  induction l with
  | nil => rfl
  | cons x xs ih =>
    rw [sortStr]
    exact List.Perm.trans (perm_insertSorted x (sortStr xs)) (List.Perm.cons x ih)

theorem mem_insertSorted (x z : String) (l : List String) :
    z ∈ insertSorted x l ↔ z = x ∨ z ∈ l :=
  by rw [List.Perm.mem_iff (perm_insertSorted x l)]; simp

/-- Sortedness invariant: every element is `≤` (not `>`) all later ones. -/
def KeysSorted (l : List String) : Prop := List.Pairwise (fun a b => strLt b a = false) l

theorem keysSorted_insertSorted (x : String) :
    ∀ l, KeysSorted l → KeysSorted (insertSorted x l) := by
  intro l
  induction l with
  | nil =>
    intro _
    exact List.pairwise_singleton _ x
  | cons y ys ih =>
    intro h
    rcases List.pairwise_cons.mp h with ⟨hy, hys⟩
    rw [insertSorted]
    by_cases hc : strLt y x = true
    · rw [if_pos hc]
      apply List.pairwise_cons.mpr
      constructor
      · intro z hz
        rcases (mem_insertSorted x z ys).mp hz with hzx | hzy
        · rw [hzx]
          exact strLt_asymm y x hc
        · exact hy z hzy
      · exact ih hys
    · rw [if_neg hc]
      apply List.pairwise_cons.mpr
      refine ⟨?_, h⟩
      intro z hz
      rcases List.mem_cons.mp hz with hzy | hzys
      · rw [hzy]
        simpa using hc
      · -- `y ≤ z` and `¬ y < x`; if `z < x` then `y < x`, contradiction
        cases hzx : strLt z x with
        | false => rfl
        | true =>
          exfalso
          have hzy2 : strLt z y = false := hy z hzys
          cases hyz : strLt y z with
          | true =>
            have := strLt_trans y z x hyz hzx
            rw [this] at hc
            exact hc rfl
          | false =>
            have := strLt_eq_of_not_lt y z hyz hzy2
            rw [this, hzx] at hc
            exact hc rfl

theorem keysSorted_sortStr : ∀ l, KeysSorted (sortStr l) := by
  intro l
  induction l with
  | nil => exact List.Pairwise.nil
  | cons x xs ih =>
    rw [sortStr]
    exact keysSorted_insertSorted x (sortStr xs) ih

/-- Two strictly sorted key lists with the same members are equal. -/
theorem keys_ext : ∀ (l1 l2 : List String),
    List.Pairwise (fun a b => strLt a b = true) l1 →
    List.Pairwise (fun a b => strLt a b = true) l2 →
    (∀ x, x ∈ l1 ↔ x ∈ l2) → l1 = l2 := by
  intro l1
  induction l1 with
  | nil =>
    intro l2 _ _ hm
    cases l2 with
    | nil => rfl
    | cons b bs =>
      exact absurd ((hm b).mpr (by simp)) (by simp)
  | cons a as ih =>
    intro l2 h1 h2 hm
    cases l2 with
    | nil => exact absurd ((hm a).mp (by simp)) (by simp)
    | cons b bs =>
      rcases List.pairwise_cons.mp h1 with ⟨ha, has⟩
      rcases List.pairwise_cons.mp h2 with ⟨hb, hbs⟩
      have hab : a = b := by
        rcases List.mem_cons.mp ((hm a).mp (by simp)) with h | h
        · exact h
        · rcases List.mem_cons.mp ((hm b).mpr (by simp)) with h3 | h3
          · exact h3.symm
          · have hba := ha b h3
            have hab2 := hb a h
            have := strLt_trans a b a hba hab2
            rw [strLt_irrefl] at this
            cases this
      subst hab
      congr 1
      apply ih bs has hbs
      intro x
      constructor
      · intro hx
        rcases List.mem_cons.mp ((hm x).mp (List.mem_cons_of_mem a hx)) with h | h
        · exfalso
          have := ha x hx
          rw [h, strLt_irrefl] at this
          cases this
        · exact h
      · intro hx
        rcases List.mem_cons.mp ((hm x).mpr (List.mem_cons_of_mem a hx)) with h | h
        · exfalso
          have := hb x hx
          rw [h, strLt_irrefl] at this
          cases this
        · exact h

/-! ### Aggregation: the groupby block of `main` -/

/-- The sorted distinct group keys of `l.groupby('country')`. -/
def groupKeys (l : List Record) : List String :=
  sortStr (l.map (fun r => r.country)).dedup

/-- The rows of one country group. -/
def groupOf (l : List Record) (c : String) : List Record :=
  l.filter (fun r => r.country == c)

/-- `df[df['status'] == 'pending']`. -/
def pendingOf (df : List Record) : List Record :=
  df.filter (fun r => r.status == "pending")

/-- `df[df['status'] == 'completed']`. -/
def completedOf (df : List Record) : List Record :=
  df.filter (fun r => r.status == "completed")

/-- `df[df['status'] == 'failed']`. -/
def failedOf (df : List Record) : List Record :=
  df.filter (fun r => r.status == "failed")

/-- `amount > 1000000` on exact decimal values:
`mant / 10^exp > 10^6  ↔  mant > 10^6 * 10^exp`. -/
def Decimal.gtMillion (d : Decimal) : Bool :=
  decide ((1000000 : Int) * 10 ^ d.exp < d.mant)

/-- `df[(df['amount'] > 1000000) & (df['status'] == 'failed')]`. -/
def criticalOf (df : List Record) : List Record :=
  df.filter (fun r => r.amount.gtMillion && (r.status == "failed"))

/-- The amounts of one group, as rationals. -/
def groupAmounts (l : List Record) (c : String) : List ℚ :=
  (groupOf l c).map (fun r => r.amount.toRat)

/-- Mean pending amount of one country. -/
def avgVal (df : List Record) (c : String) : ℚ :=
  (groupAmounts (pendingOf df) c).sum / ((groupOf (pendingOf df) c).length : ℚ)

/-- Total completed amount of one country. -/
def totVal (df : List Record) (c : String) : ℚ :=
  (groupAmounts (completedOf df) c).sum

/-- `error_rate` of one country in the aligned division
`failed.groupby.size() / df.groupby.size()`: `NaN` (`none`) when the
country has no failed rows (numerator missing after alignment). -/
def errVal (df : List Record) (c : String) : Option ℚ :=
  if (groupOf (failedOf df) c).length = 0 then none
  else some (((groupOf (failedOf df) c).length : ℚ) / ((groupOf df c).length : ℚ))

/-- `critical_rate` of one country after `.fillna(0)`. -/
def critVal (df : List Record) (c : String) : ℚ :=
  if (groupOf (criticalOf df) c).length = 0 then 0
  else ((groupOf (criticalOf df) c).length : ℚ) / ((groupOf df c).length : ℚ)

/-- The Series `average_outstanding`: index = countries with at least one
pending row (sorted), value = mean pending amount. -/
def average_outstanding (df : List Record) : List (String × ℚ) :=
  (groupKeys (pendingOf df)).map (fun c => (c, avgVal df c))

/-- The Series `total_completed`: index = countries with at least one
completed row (sorted), value = summed completed amount. -/
def total_completed (df : List Record) : List (String × ℚ) :=
  (groupKeys (completedOf df)).map (fun c => (c, totVal df c))

/-- The Series `error_rate`: its index is the union of the two divided
Series' indexes, i.e. all countries. -/
def error_rate (df : List Record) : List (String × Option ℚ) :=
  (groupKeys df).map (fun c => (c, errVal df c))

/-- The Series `critical_rate` after `.fillna(0)`: index = all countries. -/
def critical_rate (df : List Record) : List (String × ℚ) :=
  (groupKeys df).map (fun c => (c, critVal df c))

/-- One row of the final report, in the column order of the
`pd.DataFrame({...})` dictionary in `main`. -/
structure ReportRow where
  country : String
  average_outstanding : ℚ
  total_completed : ℚ
  critical_rate : ℚ
  error_rate : Option ℚ
deriving DecidableEq

def zip4 {α β γ δ : Type} : List α → List β → List γ → List δ → List (α × β × γ × δ)
  | a :: as, b :: bs, c :: cs, d :: ds => (a, b, c, d) :: zip4 as bs cs ds
  | _, _, _, _ => []

/-- The final `pd.DataFrame({...})` of `main`: the `country` column is
`average_outstanding`'s index and the other columns are the four Series'
`.values` arrays zipped positionally; pandas raises (`none`) when the
arrays' lengths differ. -/
def aggregateReport (df : List Record) : Option (List ReportRow) :=
  if (average_outstanding df).length = (total_completed df).length ∧
      (total_completed df).length = (critical_rate df).length ∧
      (critical_rate df).length = (error_rate df).length then
    some ((zip4 (average_outstanding df) (total_completed df)
        (critical_rate df) (error_rate df)).map (fun x =>
      ⟨x.1.1, x.1.2, x.2.1.2, x.2.2.1.2, x.2.2.2.2⟩))
  else none

theorem groupKeys_mem (l : List Record) (c : String) :
    c ∈ groupKeys l ↔ ∃ r ∈ l, r.country = c := by
  rw [groupKeys, List.Perm.mem_iff (perm_sortStr _), List.mem_dedup, List.mem_map]

theorem groupKeys_nodup (l : List Record) : (groupKeys l).Nodup := by
  rw [groupKeys]
  exact (List.Perm.nodup_iff (perm_sortStr _)).mpr (List.nodup_dedup _)

theorem groupKeys_strict (l : List Record) :
    List.Pairwise (fun a b => strLt a b = true) (groupKeys l) := by
  have hs : KeysSorted (groupKeys l) := keysSorted_sortStr _
  have hn : (groupKeys l).Nodup := groupKeys_nodup l
  have hc := List.Pairwise.and hs hn
  apply hc.imp
  intro a b hab
  cases hlt : strLt a b with
  | true => rfl
  | false =>
    exfalso
    exact hab.2 (strLt_eq_of_not_lt a b hlt hab.1)

/-- Group key lists are determined by which countries occur. -/
theorem groupKeys_ext (l1 l2 : List Record)
    (h : ∀ c, (∃ r ∈ l1, r.country = c) ↔ ∃ r ∈ l2, r.country = c) :
    groupKeys l1 = groupKeys l2 := by
  apply keys_ext _ _ (groupKeys_strict l1) (groupKeys_strict l2)
  intro c
  rw [groupKeys_mem, groupKeys_mem]
  exact h c

theorem zip4_map {α β γ δ ε : Type} (f1 : ε → α) (f2 : ε → β) (f3 : ε → γ) (f4 : ε → δ) :
    ∀ l : List ε, zip4 (l.map f1) (l.map f2) (l.map f3) (l.map f4) =
      l.map (fun c => (f1 c, f2 c, f3 c, f4 c)) := by
  intro l
  induction l with
  | nil => rfl
  | cons a as ih =>
    simp only [List.map_cons]
    rw [zip4, ih]

/-- Claim C5 (amended): the report's `country` column is indeed
`average_outstanding`'s index — the sorted countries with at least one
pending record — but the other columns are filled positionally from the
other Series.  The DataFrame constructor only succeeds when all four
Series have the same length, which (since `critical_rate` is indexed by
all countries) forces every country to have at least one pending and at
least one completed record; in that case all indexes coincide and each
row carries its own country's statistics.  Otherwise no report is
produced at all (pandas raises a length mismatch). -/
theorem aggregation_report (df : List Record)
    (Hp : ∀ c ∈ groupKeys df, ∃ r ∈ df, r.country = c ∧ r.status = "pending")
    (Hc : ∀ c ∈ groupKeys df, ∃ r ∈ df, r.country = c ∧ r.status = "completed") :
    aggregateReport df = some ((groupKeys (pendingOf df)).map (fun c =>
      ⟨c, avgVal df c, totVal df c, critVal df c, errVal df c⟩)) ∧
    (aggregateReport df).map (fun rows => rows.map (fun row => row.country)) =
      some (groupKeys (pendingOf df)) := by
  have hpend : groupKeys (pendingOf df) = groupKeys df := by
    apply groupKeys_ext
    intro c
    constructor
    · rintro ⟨r, hr, hrc⟩
      exact ⟨r, (List.mem_filter.mp hr).1, hrc⟩
    · rintro ⟨r, hr, hrc⟩
      have hc : c ∈ groupKeys df := (groupKeys_mem df c).mpr ⟨r, hr, hrc⟩
      rcases Hp c hc with ⟨r2, hr2, hr2c, hr2s⟩
      refine ⟨r2, List.mem_filter.mpr ⟨hr2, ?_⟩, hr2c⟩
      simp [pendingOf, hr2s]
  have hcomp : groupKeys (completedOf df) = groupKeys df := by
    apply groupKeys_ext
    intro c
    constructor
    · rintro ⟨r, hr, hrc⟩
      exact ⟨r, (List.mem_filter.mp hr).1, hrc⟩
    · rintro ⟨r, hr, hrc⟩
      have hc : c ∈ groupKeys df := (groupKeys_mem df c).mpr ⟨r, hr, hrc⟩
      rcases Hc c hc with ⟨r2, hr2, hr2c, hr2s⟩
      refine ⟨r2, List.mem_filter.mpr ⟨hr2, ?_⟩, hr2c⟩
      simp [completedOf, hr2s]
  have hrep : aggregateReport df = some ((groupKeys (pendingOf df)).map (fun c =>
      ⟨c, avgVal df c, totVal df c, critVal df c, errVal df c⟩)) := by
    rw [aggregateReport, if_pos (by
      rw [average_outstanding, total_completed, critical_rate, error_rate, hpend, hcomp]
      simp [List.length_map])]
    rw [average_outstanding, total_completed, critical_rate, error_rate, hpend, hcomp]
    rw [zip4_map (fun c => (c, avgVal df c)) (fun c => (c, totVal df c))
      (fun c => (c, critVal df c)) (fun c => (c, errVal df c))]
    rw [List.map_map]
    rfl
  refine ⟨hrep, ?_⟩
  rw [hrep]
  simp only [Option.map_some', List.map_map]
  congr 1
  have : ((fun row => ReportRow.country row) ∘ (fun c =>
      (⟨c, avgVal df c, totVal df c, critVal df c, errVal df c⟩ : ReportRow))) = id := by
    funext c
    rfl
  rw [this, List.map_id]

/-- Dataset for the Claim C5 counterexample: Spain has a pending record
(so the claim predicts a one-row report for Spain), but there are no
completed records, so the Series lengths disagree. -/
def aggCexData : List Record :=
  [⟨1, "Spain", "pending", ⟨100, 0⟩⟩, ⟨2, "USA", "failed", ⟨50, 0⟩⟩]

/-- Claim C5 counterexample: on `aggCexData` the aggregation step does
not produce any report — the DataFrame constructor raises because the
four column arrays have different lengths — even though the dataset has a
country with pending records. -/
theorem aggregation_report_cex : aggregateReport aggCexData = none := by decide

/-- All-aligned dataset for the Claim C5 witness. -/
def aggWitData : List Record :=
  [⟨1, "Spain", "pending", ⟨100, 0⟩⟩, ⟨2, "Spain", "completed", ⟨200, 0⟩⟩,
   ⟨3, "USA", "pending", ⟨10, 0⟩⟩, ⟨4, "USA", "completed", ⟨20, 0⟩⟩]

theorem aggregation_report_witness :
    aggregateReport aggWitData = some ((groupKeys (pendingOf aggWitData)).map (fun c =>
      ⟨c, avgVal aggWitData c, totVal aggWitData c, critVal aggWitData c,
        errVal aggWitData c⟩)) ∧
    (aggregateReport aggWitData).map (fun rows => rows.map (fun row => row.country)) =
      some (groupKeys (pendingOf aggWitData)) :=
  aggregation_report aggWitData (by decide) (by decide)

/-- The 4-record fixture of the spec's aggregation test. -/
def aggFixture : List Record :=
  [⟨1, "Spain", "pending", ⟨100, 0⟩⟩,
   ⟨2, "Spain", "completed", ⟨200, 0⟩⟩,
   ⟨3, "Spain", "failed", ⟨50, 0⟩⟩,
   ⟨4, "USA", "failed", ⟨2000000, 0⟩⟩]

/-- Claim C6: on the fixture, the aggregation computes
`average_outstanding["Spain"] = 100`, `total_completed["Spain"] = 200`,
`error_rate["Spain"] = 1/3`, `critical_rate["USA"] = 1` (the failed
2,000,000 amount exceeds the 1,000,000 threshold) and
`critical_rate["Spain"] = 0`. -/
theorem aggregation_fixture :
    (average_outstanding aggFixture).lookup "Spain" = some 100 ∧
    (total_completed aggFixture).lookup "Spain" = some 200 ∧
    (error_rate aggFixture).lookup "Spain" = some (some (1 / 3)) ∧
    (critical_rate aggFixture).lookup "USA" = some 1 ∧
    (critical_rate aggFixture).lookup "Spain" = some 0 := by
  refine ⟨?_, ?_, ?_, ?_, ?_⟩
  · have e1 : (average_outstanding aggFixture).lookup "Spain" =
        some (avgVal aggFixture "Spain") := rfl
    have e2 : groupAmounts (pendingOf aggFixture) "Spain" =
        [Decimal.toRat ⟨100, 0⟩] := rfl
    have e3 : (groupOf (pendingOf aggFixture) "Spain").length = 1 := rfl
    rw [e1, avgVal, e2, e3]
    norm_num [Decimal.toRat]
  · have e1 : (total_completed aggFixture).lookup "Spain" =
        some (totVal aggFixture "Spain") := rfl
    have e2 : groupAmounts (completedOf aggFixture) "Spain" =
        [Decimal.toRat ⟨200, 0⟩] := rfl
    rw [e1, totVal, e2]
    norm_num [Decimal.toRat]
  · have e1 : (error_rate aggFixture).lookup "Spain" =
        some (errVal aggFixture "Spain") := rfl
    have e2 : (groupOf (failedOf aggFixture) "Spain").length = 1 := rfl
    have e3 : (groupOf aggFixture "Spain").length = 3 := rfl
    rw [e1, errVal, e2, e3]
    norm_num
  · have e1 : (critical_rate aggFixture).lookup "USA" =
        some (critVal aggFixture "USA") := rfl
    have e2 : (groupOf (criticalOf aggFixture) "USA").length = 1 := rfl
    have e3 : (groupOf aggFixture "USA").length = 1 := rfl
    rw [e1, critVal, e2, e3]
    norm_num
  · have e1 : (critical_rate aggFixture).lookup "Spain" =
        some (critVal aggFixture "Spain") := rfl
    have e2 : (groupOf (criticalOf aggFixture) "Spain").length = 0 := rfl
    rw [e1, critVal, e2]
    norm_num

/-! ### FuzzyCorrector: `fix_word` on top of `difflib.get_close_matches`

The corrector's inputs are short words (far below difflib's autojunk
threshold of 200) and no junk predicate is set, so `SequenceMatcher` runs
with no junk at all; in that case the post-extension loops of
`find_longest_match` never fire and the matcher is exactly the dynamic
program modelled here. -/

/-- Length of the common run of `a` and `b` ending at positions `i`/`j`
inclusive and clipped at the window starts `alo`/`blo` — the quantity
`find_longest_match`'s `j2len` dictionary chains. -/
def runEnd (a b : List Char) (alo blo : Nat) : Nat → Nat → Nat
  | 0, j => if a.getD 0 ' ' = b.getD j ' ' then 1 else 0
  | i + 1, j =>
    if a.getD (i + 1) ' ' = b.getD j ' ' then
      if alo < i + 1 ∧ blo < j then runEnd a b alo blo i (j - 1) + 1 else 1
    else 0

/-- The uniform unfolding of `runEnd` (the `i = 0` base case is the
general shape with an unreachable guard). -/
theorem runEnd_unfold (a b : List Char) (alo blo i j : Nat) :
    runEnd a b alo blo i j =
      if a.getD i ' ' = b.getD j ' ' then
        if alo < i ∧ blo < j then runEnd a b alo blo (i - 1) (j - 1) + 1 else 1
      else 0 := by
  cases i with
  | zero =>
    rw [runEnd]
    by_cases hc : a.getD 0 ' ' = b.getD j ' '
    · rw [if_pos hc, if_pos hc, if_neg (by omega)]
    · rw [if_neg hc, if_neg hc]
  | succ i2 =>
    rw [runEnd]
    simp only [Nat.add_sub_cancel]

/-- All index pairs of the window `[alo, ahi) × [blo, bhi)` in the scan
order of the double loop of `find_longest_match`. -/
def window (alo ahi blo bhi : Nat) : List (Nat × Nat) :=
  ((List.range' alo (ahi - alo)).map (fun i =>
    (List.range' blo (bhi - blo)).map (fun j => (i, j)))).flatten

/-- `find_longest_match(alo, ahi, blo, bhi)` (no junk): scan end
positions in increasing `(i, j)`, keep the first strictly longest run;
returns `(besti, bestj, bestsize)`, `(alo, blo, 0)` when nothing
matches. -/
def flm (a b : List Char) (alo ahi blo bhi : Nat) : Nat × Nat × Nat :=
  (window alo ahi blo bhi).foldl (fun best ij =>
    let k := runEnd a b alo blo ij.1 ij.2
    if best.2.2 < k then (ij.1 + 1 - k, ij.2 + 1 - k, k) else best) (alo, blo, 0)

/-- Total size of `get_matching_blocks`' blocks on a window: recursive
divide-and-conquer around each longest match; the fuel only bounds the
recursion depth and `a.length + b.length + 1` is always enough. -/
def mtAux (a b : List Char) : Nat → Nat → Nat → Nat → Nat → Nat
  | 0, _, _, _, _ => 0
  | fuel + 1, alo, ahi, blo, bhi =>
    let r := flm a b alo ahi blo bhi
    if r.2.2 = 0 then 0
    else mtAux a b fuel alo r.1 blo r.2.1 + r.2.2 +
      mtAux a b fuel (r.1 + r.2.2) ahi (r.2.1 + r.2.2) bhi

/-- `M`: the total number of matched elements between `a` and `b`. -/
def matchesTotal (a b : List Char) : Nat :=
  mtAux a b (a.length + b.length + 1) 0 a.length 0 b.length

/-- `_calculate_ratio(matches, length)`: `2M/T`, and `1.0` for two empty
sequences. -/
def calcSim (m t : Nat) : ℚ :=
  if t = 0 then 1 else 2 * (m : ℚ) / (t : ℚ)

/-- `SequenceMatcher.ratio()` between candidate `a` and word `b`. -/
def seqSim (a b : List Char) : ℚ := calcSim (matchesTotal a b) (a.length + b.length)

/-- `quick_ratio`'s matches: the cardinality of the multiset
intersection of the two letter multisets. -/
def quickMatches (a b : List Char) : Nat :=
  Multiset.card ((a : Multiset Char) ∩ (b : Multiset Char))

/-- `SequenceMatcher.quick_ratio()`. -/
def quickSim (a b : List Char) : ℚ := calcSim (quickMatches a b) (a.length + b.length)

/-- `SequenceMatcher.real_quick_ratio()`. -/
def realQuickSim (a b : List Char) : ℚ := calcSim (min a.length b.length) (a.length + b.length)

/-- The filter-and-score loop of `difflib.get_close_matches` (the word is
sequence 2, each candidate sequence 1). -/
def closeScored (word : List Char) (opts : List String) (cutoff : ℚ) :
    List (ℚ × String) :=
  opts.filterMap (fun x =>
    if cutoff ≤ realQuickSim x.data word ∧ cutoff ≤ quickSim x.data word ∧
        cutoff ≤ seqSim x.data word then
      some (seqSim x.data word, x)
    else none)

/-- `heapq.nlargest(1, result)` on `(score, string)` pairs: the maximum
in tuple order (score first, ties towards the larger string). -/
def best1 : List (ℚ × String) → Option (ℚ × String)
  | [] => none
  | p :: ps =>
    match best1 ps with
    | none => some p
    | some q => if p.1 < q.1 ∨ (p.1 = q.1 ∧ strLt p.2 q.2 = true) then some q else some p

/-- `fix_word`: the single closest option at cutoff `0.7` via
`get_close_matches(word, options, n=1, cutoff=0.7)`, or the word itself
when no option is close enough. -/
def fix_word (word : String) (options : List String) : String :=
  match best1 (closeScored word.data options (7 / 10)) with
  | some p => p.2
  | none => word

/-- The best similarity any option achieves against the word. -/
def maxSim (word : String) (opts : List String) : ℚ :=
  (opts.map (fun x => seqSim x.data word.data)).foldr max 0

theorem runEnd_le (a b : List Char) (alo blo : Nat) :
    ∀ i j, alo ≤ i → blo ≤ j →
      runEnd a b alo blo i j ≤ min (i + 1 - alo) (j + 1 - blo) := by
  intro i
  induction i using Nat.strong_induction_on with
  | _ i ih =>
    intro j hai hbj
    rw [runEnd_unfold]
    by_cases hc : a.getD i ' ' = b.getD j ' '
    · rw [if_pos hc]
      by_cases hg : alo < i ∧ blo < j
      · rw [if_pos hg]
        have h2 := ih (i - 1) (by omega) (j - 1) (by omega) (by omega)
        omega
      · rw [if_neg hg]
        omega
    · rw [if_neg hc]
      omega

theorem runEnd_chars (a b : List Char) (alo blo : Nat) :
    ∀ i j t, t < runEnd a b alo blo i j →
      a.getD (i - t) ' ' = b.getD (j - t) ' ' := by
  intro i
  induction i using Nat.strong_induction_on with
  | _ i ih =>
    intro j t ht
    rw [runEnd_unfold] at ht
    by_cases hc : a.getD i ' ' = b.getD j ' '
    · rw [if_pos hc] at ht
      by_cases hg : alo < i ∧ blo < j
      · rw [if_pos hg] at ht
        cases t with
        | zero => simpa using hc
        | succ t2 =>
          have h2 := ih (i - 1) (by omega) (j - 1) t2 (by omega)
          have e1 : i - (t2 + 1) = i - 1 - t2 := by omega
          have e2 : j - (t2 + 1) = j - 1 - t2 := by omega
          rw [e1, e2]
          exact h2
      · rw [if_neg hg] at ht
        have : t = 0 := by omega
        subst this
        simpa using hc
    · rw [if_neg hc] at ht
      omega

theorem window_mem (alo ahi blo bhi : Nat) (p : Nat × Nat) :
    p ∈ window alo ahi blo bhi ↔ alo ≤ p.1 ∧ p.1 < ahi ∧ blo ≤ p.2 ∧ p.2 < bhi := by
  rw [window, List.mem_flatten]
  constructor
  · rintro ⟨l, hl, hpl⟩
    rcases List.mem_map.mp hl with ⟨i, hi, hil⟩
    subst hil
    rcases List.mem_map.mp hpl with ⟨j, hj, hjp⟩
    subst hjp
    rcases List.mem_range'_1.mp hi with ⟨h1, h2⟩
    rcases List.mem_range'_1.mp hj with ⟨h3, h4⟩
    exact ⟨h1, by omega, h3, by omega⟩
  · rintro ⟨h1, h2, h3, h4⟩
    refine ⟨(List.range' blo (bhi - blo)).map (fun j => (p.1, j)), ?_, ?_⟩
    · exact List.mem_map.mpr ⟨p.1, List.mem_range'_1.mpr ⟨h1, by omega⟩, rfl⟩
    · exact List.mem_map.mpr ⟨p.2, List.mem_range'_1.mpr ⟨h3, by omega⟩, by
        cases p
        rfl⟩

/-- Shape invariant of `find_longest_match`'s result: either nothing
matched, or the block is inside the window and the matched stretches are
equal character for character. -/
def FlmInv (a b : List Char) (alo ahi blo bhi : Nat) (r : Nat × Nat × Nat) : Prop :=
  r = (alo, blo, 0) ∨
    (alo ≤ r.1 ∧ r.1 + r.2.2 ≤ ahi ∧ blo ≤ r.2.1 ∧ r.2.1 + r.2.2 ≤ bhi ∧ 0 < r.2.2 ∧
      ∀ t < r.2.2, a.getD (r.1 + t) ' ' = b.getD (r.2.1 + t) ' ')

theorem flm_spec (a b : List Char) (alo ahi blo bhi : Nat) :
    FlmInv a b alo ahi blo bhi (flm a b alo ahi blo bhi) := by
  rw [flm]
  apply List.foldlRecOn
  · exact Or.inl rfl
  · intro best hbest ij hij
    rcases (window_mem alo ahi blo bhi ij).mp hij with ⟨h1, h2, h3, h4⟩
    by_cases hlt : best.2.2 < runEnd a b alo blo ij.1 ij.2
    · simp only [hlt, if_pos]
      set k := runEnd a b alo blo ij.1 ij.2 with hk
      have hkpos : 0 < k := by omega
      have hkle := runEnd_le a b alo blo ij.1 ij.2 h1 h3
      right
      dsimp only
      refine ⟨by omega, by omega, by omega, by omega, hkpos, ?_⟩
      intro t ht
      have e1 : ij.1 + 1 - k + t = ij.1 - (k - 1 - t) := by omega
      have e2 : ij.2 + 1 - k + t = ij.2 - (k - 1 - t) := by omega
      rw [e1, e2]
      exact runEnd_chars a b alo blo ij.1 ij.2 (k - 1 - t) (by omega)
    · simp only [if_neg hlt]
      exact hbest

theorem mtAux_le_window (a b : List Char) :
    ∀ fuel alo ahi blo bhi,
      mtAux a b fuel alo ahi blo bhi ≤ min (ahi - alo) (bhi - blo) := by
  intro fuel
  induction fuel with
  | zero =>
    intro alo ahi blo bhi
    rw [mtAux]
    omega
  | succ fuel ih =>
    intro alo ahi blo bhi
    rw [mtAux]
    rcases flm_spec a b alo ahi blo bhi with hsp | hsp
    · rw [hsp]
      dsimp only
      rw [if_pos rfl]
      omega
    · obtain ⟨h1, h2, h3, h4, h5, _⟩ := hsp
      rw [if_neg (by omega)]
      have hl := ih alo (flm a b alo ahi blo bhi).1 blo (flm a b alo ahi blo bhi).2.1
      have hr := ih ((flm a b alo ahi blo bhi).1 + (flm a b alo ahi blo bhi).2.2) ahi
        ((flm a b alo ahi blo bhi).2.1 + (flm a b alo ahi blo bhi).2.2) bhi
      omega

/-- The window slice `l[lo:hi]`. -/
def sliceW {α : Type} (l : List α) (lo hi : Nat) : List α := (l.drop lo).take (hi - lo)

theorem sliceW_split {α : Type} (l : List α) (lo m hi : Nat) (h1 : lo ≤ m) (h2 : m ≤ hi) :
    sliceW l lo hi = sliceW l lo m ++ sliceW l m hi := by
  simp only [sliceW]
  have e1 : hi - lo = (m - lo) + (hi - m) := by omega
  have e2 : lo + (m - lo) = m := by omega
  rw [e1, List.take_add, List.drop_drop, e2]

theorem sliceW_length {α : Type} (l : List α) (lo hi : Nat) (h : hi ≤ l.length) :
    (sliceW l lo hi).length = hi - lo := by
  simp only [sliceW]
  simp only [List.length_take, List.length_drop]
  omega

theorem sliceW_all {α : Type} (l : List α) : sliceW l 0 l.length = l := by
  simp only [sliceW]
  simp

theorem sliceW_blocks_eq (a b : List Char) (i j k : Nat)
    (ha : i + k ≤ a.length) (hb : j + k ≤ b.length)
    (hc : ∀ t < k, a.getD (i + t) ' ' = b.getD (j + t) ' ') :
    sliceW a i (i + k) = sliceW b j (j + k) := by
  apply List.ext_getElem
  · rw [sliceW_length a i (i + k) ha, sliceW_length b j (j + k) hb]
    omega
  · intro t ht1 ht2
    have htk : t < k := by
      rw [sliceW_length a i (i + k) ha] at ht1
      omega
    simp only [sliceW]
    rw [List.getElem_take, List.getElem_drop, List.getElem_take, List.getElem_drop]
    have hga : a[i + t] = a.getD (i + t) ' ' := (List.getD_eq_getElem a ' ' (by omega)).symm
    have hgb : b[j + t] = b.getD (j + t) ' ' := (List.getD_eq_getElem b ' ' (by omega)).symm
    rw [hga, hgb]
    exact hc t htk

theorem quickMatches_superadd (x1 t x2 y1 y2 : List Char) :
    quickMatches x1 y1 + t.length + quickMatches x2 y2 ≤
      quickMatches (x1 ++ t ++ x2) (y1 ++ t ++ y2) := by
  simp only [quickMatches]
  have hle : ((x1 : Multiset Char) ∩ (y1 : Multiset Char)) + (t : Multiset Char) +
      ((x2 : Multiset Char) ∩ (y2 : Multiset Char)) ≤
      (((x1 ++ t ++ x2 : List Char) : Multiset Char) ∩
        ((y1 ++ t ++ y2 : List Char) : Multiset Char)) := by
    rw [Multiset.le_iff_count]
    intro c
    simp only [Multiset.count_add, Multiset.count_inter, Multiset.coe_count,
      List.count_append, inf_eq_min]
    omega
  have hcards : Multiset.card (((x1 : Multiset Char) ∩ (y1 : Multiset Char)) +
        (t : Multiset Char) + ((x2 : Multiset Char) ∩ (y2 : Multiset Char))) =
      Multiset.card ((x1 : Multiset Char) ∩ (y1 : Multiset Char)) + t.length +
        Multiset.card ((x2 : Multiset Char) ∩ (y2 : Multiset Char)) := by
    rw [Multiset.card_add, Multiset.card_add, Multiset.coe_card]
  have hmono := Multiset.card_le_card hle
  omega

theorem mtAux_le_quick (a b : List Char) :
    ∀ fuel alo ahi blo bhi, ahi ≤ a.length → bhi ≤ b.length →
      mtAux a b fuel alo ahi blo bhi ≤ quickMatches (sliceW a alo ahi) (sliceW b blo bhi) := by
  intro fuel
  induction fuel with
  | zero =>
    intro alo ahi blo bhi _ _
    rw [mtAux]
    omega
  | succ fuel ih =>
    intro alo ahi blo bhi hal hbl
    rw [mtAux]
    rcases flm_spec a b alo ahi blo bhi with hsp | hsp
    · rw [hsp]
      dsimp only
      rw [if_pos rfl]
      omega
    · obtain ⟨h1, h2, h3, h4, h5, hchars⟩ := hsp
      rw [if_neg (by omega)]
      set r := flm a b alo ahi blo bhi with hr
      set i := r.1 with hi
      set j := r.2.1 with hj
      set k := r.2.2 with hk
      by_cases halo : alo ≤ i
      case neg =>
        -- `alo ≤ i` always holds in the nonzero branch
        omega
      case pos =>
      have hsplita : sliceW a alo ahi = sliceW a alo i ++ sliceW a i (i + k) ++
          sliceW a (i + k) ahi := by
        rw [← sliceW_split a alo i (i + k) halo (by omega),
          ← sliceW_split a alo (i + k) ahi (by omega) h2]
      have hsplitb : sliceW b blo bhi = sliceW b blo j ++ sliceW b j (j + k) ++
          sliceW b (j + k) bhi := by
        rw [← sliceW_split b blo j (j + k) h3 (by omega),
          ← sliceW_split b blo (j + k) bhi (by omega) h4]
      have hblock : sliceW a i (i + k) = sliceW b j (j + k) :=
        sliceW_blocks_eq a b i j k (by omega) (by omega) hchars
      have hblen : (sliceW a i (i + k)).length = k :=
        by rw [sliceW_length a i (i + k) (by omega)]; omega
      rw [hsplita, hsplitb, ← hblock]
      have hsup := quickMatches_superadd (sliceW a alo i) (sliceW a i (i + k))
        (sliceW a (i + k) ahi) (sliceW b blo j) (sliceW b (j + k) bhi)
      rw [hblen] at hsup
      have hihl := ih alo i blo j (by omega) (by omega)
      have hihr := ih (i + k) ahi (j + k) bhi hal hbl
      omega

theorem matchesTotal_le_quick (a b : List Char) : matchesTotal a b ≤ quickMatches a b := by
  have h := mtAux_le_quick a b (a.length + b.length + 1) 0 a.length 0 b.length le_rfl le_rfl
  rw [sliceW_all, sliceW_all] at h
  exact h

theorem matchesTotal_le_min (a b : List Char) :
    matchesTotal a b ≤ min a.length b.length := by
  have h := mtAux_le_window a b (a.length + b.length + 1) 0 a.length 0 b.length
  show mtAux a b (a.length + b.length + 1) 0 a.length 0 b.length ≤ min a.length b.length
  omega

theorem calcSim_mono (m1 m2 t : Nat) (h : m1 ≤ m2) : calcSim m1 t ≤ calcSim m2 t := by
  rw [calcSim, calcSim]
  by_cases ht : t = 0
  · rw [if_pos ht]
    rw [if_pos ht]
  · rw [if_neg ht, if_neg ht]
    have htp : (0 : ℚ) < (t : ℚ) := by
      exact_mod_cast Nat.pos_of_ne_zero ht
    apply (div_le_div_right htp).mpr
    have : (m1 : ℚ) ≤ (m2 : ℚ) := by exact_mod_cast h
    linarith

/-- `quick_ratio` is an upper bound on `ratio`. -/
theorem seqSim_le_quickSim (a b : List Char) : seqSim a b ≤ quickSim a b :=
  calcSim_mono _ _ _ (matchesTotal_le_quick a b)

/-- `real_quick_ratio` is an upper bound on `ratio`. -/
theorem seqSim_le_realQuickSim (a b : List Char) : seqSim a b ≤ realQuickSim a b :=
  calcSim_mono _ _ _ (matchesTotal_le_min a b)

theorem foldr_max_le (l : List ℚ) (x : ℚ) (hx : x ∈ l) : x ≤ l.foldr max 0 := by
  induction l with
  | nil => simp at hx
  | cons a as ih =>
    rw [List.foldr_cons]
    rcases List.mem_cons.mp hx with h | h
    · rw [h]
      exact le_max_left _ _
    · exact le_trans (ih h) (le_max_right _ _)

theorem foldr_max_cases (l : List ℚ) : l.foldr max 0 = 0 ∨ l.foldr max 0 ∈ l := by
  induction l with
  | nil => exact Or.inl rfl
  | cons a as ih =>
    rw [List.foldr_cons]
    rcases max_choice a (as.foldr max 0) with h | h
    · rw [h]
      exact Or.inr (by simp)
    · rw [h]
      rcases ih with h2 | h2
      · exact Or.inl h2
      · exact Or.inr (List.mem_cons_of_mem a h2)

theorem best1_eq_none (l : List (ℚ × String)) (h : best1 l = none) : l = [] := by
  cases l with
  | nil => rfl
  | cons p ps =>
    exfalso
    rw [best1] at h
    cases hb : best1 ps with
    | none =>
      rw [hb] at h
      simp at h
    | some q =>
      rw [hb] at h
      dsimp only at h
      by_cases hc : p.1 < q.1 ∨ (p.1 = q.1 ∧ strLt p.2 q.2 = true)
      · rw [if_pos hc] at h
        simp at h
      · rw [if_neg hc] at h
        simp at h

theorem best1_spec (l : List (ℚ × String)) :
    ∀ p, best1 l = some p → p ∈ l ∧ ∀ q ∈ l, q.1 ≤ p.1 := by
  induction l with
  | nil =>
    intro p h
    simp [best1] at h
  | cons a as ih =>
    intro p h
    rw [best1] at h
    cases hb : best1 as with
    | none =>
      rw [hb] at h
      have hpa : a = p := Option.some.inj h
      subst hpa
      have hnil := best1_eq_none as hb
      subst hnil
      refine ⟨by simp, ?_⟩
      intro q hq
      rcases List.mem_cons.mp hq with h2 | h2
      · rw [h2]
      · simp at h2
    | some q0 =>
      rw [hb] at h
      dsimp only at h
      obtain ⟨hq0mem, hq0max⟩ := ih q0 hb
      by_cases hc : a.1 < q0.1 ∨ (a.1 = q0.1 ∧ strLt a.2 q0.2 = true)
      · rw [if_pos hc] at h
        have hpq : q0 = p := Option.some.inj h
        subst hpq
        refine ⟨List.mem_cons_of_mem a hq0mem, ?_⟩
        intro q hq
        rcases List.mem_cons.mp hq with h2 | h2
        · rw [h2]
          rcases hc with h3 | h3
          · exact le_of_lt h3
          · exact le_of_eq h3.1
        · exact hq0max q h2
      · rw [if_neg hc] at h
        have hpa : a = p := Option.some.inj h
        subst hpa
        refine ⟨by simp, ?_⟩
        intro q hq
        rcases List.mem_cons.mp hq with h2 | h2
        · rw [h2]
        · push_neg at hc
          exact le_trans (hq0max q h2) hc.1
-- (the `push_neg` gives `¬(a.1 < q0.1)`, i.e. `q0.1 ≤ a.1`)

theorem closeScored_mem (word : List Char) (opts : List String) (cutoff : ℚ)
    (p : ℚ × String) :
    p ∈ closeScored word opts cutoff ↔
      p.2 ∈ opts ∧ cutoff ≤ realQuickSim p.2.data word ∧
        cutoff ≤ quickSim p.2.data word ∧ cutoff ≤ seqSim p.2.data word ∧
        p.1 = seqSim p.2.data word := by
  rw [closeScored, List.mem_filterMap]
  constructor
  · rintro ⟨x, hx, hfx⟩
    by_cases hcond : cutoff ≤ realQuickSim x.data word ∧ cutoff ≤ quickSim x.data word ∧
        cutoff ≤ seqSim x.data word
    · rw [if_pos hcond] at hfx
      have hp : (seqSim x.data word, x) = p := Option.some.inj hfx
      rw [← hp]
      exact ⟨hx, hcond.1, hcond.2.1, hcond.2.2, rfl⟩
    · rw [if_neg hcond] at hfx
      simp at hfx
  · rintro ⟨hmem, h1, h2, h3, h4⟩
    refine ⟨p.2, hmem, ?_⟩
    rw [if_pos ⟨h1, h2, h3⟩]
    rw [← h4]

set_option maxRecDepth 4000 in
theorem seqSim_spain_sopain : seqSim "Spain".data "Sopain".data = 10 / 11 := by
  have hm : matchesTotal "Spain".data "Sopain".data = 5 := by decide
  have hl : "Spain".data.length + "Sopain".data.length = 11 := by decide
  simp only [seqSim]
  rw [hm, hl]
  simp only [calcSim]
  norm_num

set_option maxRecDepth 4000 in
theorem seqSim_usa_sopain : seqSim "USA".data "Sopain".data = 2 / 9 := by
  have hm : matchesTotal "USA".data "Sopain".data = 1 := by decide
  have hl : "USA".data.length + "Sopain".data.length = 9 := by decide
  simp only [seqSim]
  rw [hm, hl]
  simp only [calcSim]
  norm_num

set_option maxRecDepth 4000 in
theorem seqSim_italy_sopain : seqSim "Italy".data "Sopain".data = 2 / 11 := by
  have hm : matchesTotal "Italy".data "Sopain".data = 1 := by decide
  have hl : "Italy".data.length + "Sopain".data.length = 11 := by decide
  simp only [seqSim]
  rw [hm, hl]
  simp only [calcSim]
  norm_num

set_option maxRecDepth 4000 in
theorem seqSim_spain_xyzzy : seqSim "Spain".data "Xyzzy".data = 0 := by
  have hm : matchesTotal "Spain".data "Xyzzy".data = 0 := by decide
  have hl : "Spain".data.length + "Xyzzy".data.length = 10 := by decide
  simp only [seqSim]
  rw [hm, hl]
  simp only [calcSim]
  norm_num

set_option maxRecDepth 4000 in
theorem seqSim_usa_xyzzy : seqSim "USA".data "Xyzzy".data = 0 := by
  have hm : matchesTotal "USA".data "Xyzzy".data = 0 := by decide
  have hl : "USA".data.length + "Xyzzy".data.length = 8 := by decide
  simp only [seqSim]
  rw [hm, hl]
  simp only [calcSim]
  norm_num

set_option maxRecDepth 4000 in
theorem seqSim_italy_xyzzy : seqSim "Italy".data "Xyzzy".data = 1 / 5 := by
  have hm : matchesTotal "Italy".data "Xyzzy".data = 1 := by decide
  have hl : "Italy".data.length + "Xyzzy".data.length = 10 := by decide
  simp only [seqSim]
  rw [hm, hl]
  simp only [calcSim]
  norm_num

theorem maxSim_sopain : maxSim "Sopain" ["Spain", "USA", "Italy"] = 10 / 11 := by
  have e0 : maxSim "Sopain" ["Spain", "USA", "Italy"] =
      max (seqSim "Spain".data "Sopain".data)
        (max (seqSim "USA".data "Sopain".data)
          (max (seqSim "Italy".data "Sopain".data) 0)) := rfl
  rw [e0, seqSim_spain_sopain, seqSim_usa_sopain, seqSim_italy_sopain]
  rw [max_eq_left (by norm_num : (0 : ℚ) ≤ 2 / 11)]
  rw [max_eq_left (by norm_num : (2 : ℚ) / 11 ≤ 2 / 9)]
  rw [max_eq_left (by norm_num : (2 : ℚ) / 9 ≤ 10 / 11)]

theorem maxSim_xyzzy : maxSim "Xyzzy" ["Spain", "USA", "Italy"] = 1 / 5 := by
  have e0 : maxSim "Xyzzy" ["Spain", "USA", "Italy"] =
      max (seqSim "Spain".data "Xyzzy".data)
        (max (seqSim "USA".data "Xyzzy".data)
          (max (seqSim "Italy".data "Xyzzy".data) 0)) := rfl
  rw [e0, seqSim_spain_xyzzy, seqSim_usa_xyzzy, seqSim_italy_xyzzy]
  rw [max_eq_left (by norm_num : (0 : ℚ) ≤ 1 / 5)]
  rw [max_eq_right (by norm_num : (0 : ℚ) ≤ 1 / 5)]
  rw [max_eq_right (by norm_num : (0 : ℚ) ≤ 1 / 5)]

theorem fix_word_total_spec (word : String) (opts : List String) :
    ((7 : ℚ) / 10 ≤ maxSim word opts →
      fix_word word opts ∈ opts ∧
        seqSim (fix_word word opts).data word.data = maxSim word opts) ∧
    (maxSim word opts < 7 / 10 → fix_word word opts = word) := by
  constructor
  · intro hge
    rcases foldr_max_cases (opts.map (fun x => seqSim x.data word.data)) with h0 | hmem
    · exfalso
      have : maxSim word opts = 0 := h0
      rw [this] at hge
      norm_num at hge
    · rcases List.mem_map.mp hmem with ⟨xstar, hxs, hsim⟩
      have hsim2 : seqSim xstar.data word.data = maxSim word opts := hsim
      have hxge : (7 : ℚ) / 10 ≤ seqSim xstar.data word.data := by
        rw [hsim2]
        exact hge
      have hmemscored :
          (seqSim xstar.data word.data, xstar) ∈ closeScored word.data opts (7 / 10) := by
        apply (closeScored_mem word.data opts (7 / 10) _).mpr
        refine ⟨hxs, ?_, ?_, hxge, rfl⟩
        · exact le_trans hxge (seqSim_le_realQuickSim _ _)
        · exact le_trans hxge (seqSim_le_quickSim _ _)
      cases hb : best1 (closeScored word.data opts (7 / 10)) with
      | none =>
        exfalso
        have hnil := best1_eq_none _ hb
        rw [hnil] at hmemscored
        simp at hmemscored
      | some p =>
        obtain ⟨hpmem, hpmax⟩ := best1_spec _ p hb
        obtain ⟨hp2, _, _, _, hp1⟩ := (closeScored_mem word.data opts (7 / 10) p).mp hpmem
        have hfw : fix_word word opts = p.2 := by
          simp only [fix_word]
          rw [hb]
        refine ⟨hfw ▸ hp2, ?_⟩
        rw [hfw, ← hp1]
        apply le_antisymm
        · rw [hp1]
          exact foldr_max_le _ _ (List.mem_map_of_mem (fun x => seqSim x.data word.data) hp2)
        · rw [← hsim2]
          exact hpmax _ hmemscored
  · intro hlt
    have hempty : closeScored word.data opts (7 / 10) = [] := by
      cases hcs : closeScored word.data opts (7 / 10) with
      | nil => rfl
      | cons p ps =>
        exfalso
        have hpmem : p ∈ closeScored word.data opts (7 / 10) := by
          rw [hcs]
          exact List.mem_cons_self p ps
        obtain ⟨hp2, _, _, hp3, _⟩ := (closeScored_mem word.data opts (7 / 10) p).mp hpmem
        have hle : seqSim p.2.data word.data ≤ maxSim word opts :=
          foldr_max_le _ _ (List.mem_map_of_mem (fun x => seqSim x.data word.data) hp2)
        linarith
    simp only [fix_word]
    rw [hempty]
    rfl

theorem fix_word_sopain : fix_word "Sopain" ["Spain", "USA", "Italy"] = "Spain" := by
  obtain ⟨hmem, hsim⟩ := (fix_word_total_spec "Sopain" ["Spain", "USA", "Italy"]).1
    (by rw [maxSim_sopain]; norm_num)
  rw [maxSim_sopain] at hsim
  simp only [List.mem_cons, List.not_mem_nil, or_false] at hmem
  rcases hmem with h | h | h
  · exact h
  · rw [h] at hsim
    rw [seqSim_usa_sopain] at hsim
    norm_num at hsim
  · rw [h] at hsim
    rw [seqSim_italy_sopain] at hsim
    norm_num at hsim

theorem fix_word_xyzzy : fix_word "Xyzzy" ["Spain", "USA", "Italy"] = "Xyzzy" :=
  (fix_word_total_spec "Xyzzy" ["Spain", "USA", "Italy"]).2
    (by rw [maxSim_xyzzy]; norm_num)

/-- Claim C7: `fix_word(value, options)` never fails: it is a total function
on strings. Whenever the best `difflib` similarity ratio of any option
against the value reaches the `0.7` cutoff, it returns an option from the
vocabulary achieving exactly that best ratio; otherwise it returns the value
unchanged. In particular `fix_word "Sopain" ["Spain", "USA", "Italy"]`
returns `"Spain"` and `fix_word "Xyzzy" ["Spain", "USA", "Italy"]` returns
`"Xyzzy"` unchanged. -/
theorem fuzzy_correction :
    (∀ (word : String) (opts : List String),
      ((7 : ℚ) / 10 ≤ maxSim word opts →
        fix_word word opts ∈ opts ∧
          seqSim (fix_word word opts).data word.data = maxSim word opts) ∧
      (maxSim word opts < 7 / 10 → fix_word word opts = word)) ∧
    fix_word "Sopain" ["Spain", "USA", "Italy"] = "Spain" ∧
    fix_word "Xyzzy" ["Spain", "USA", "Italy"] = "Xyzzy" :=
  ⟨fix_word_total_spec, fix_word_sopain, fix_word_xyzzy⟩

theorem fuzzy_correction_witness :
    fix_word "Sopain" ["Spain", "USA", "Italy"] ∈ ["Spain", "USA", "Italy"] ∧
    seqSim (fix_word "Sopain" ["Spain", "USA", "Italy"]).data "Sopain".data =
      maxSim "Sopain" ["Spain", "USA", "Italy"] :=
  (fuzzy_correction.1 "Sopain" ["Spain", "USA", "Italy"]).1
    (by rw [maxSim_sopain]; norm_num)

end Pipeline
